import Mathlib

/-!
Shallow embedding of `src/packages/stitch/src/mergeCandidates.ts` from the
PlayAnyData/gateway repository: the type-merging engine that combines, for each
type name, the candidate definitions contributed by the individual subgraphs
into one merged GraphQL named type.

Modelling conventions:
* JavaScript insertion-ordered records (prototype-less objects used as ordered
  dictionaries) are modelled as association lists `List (String × α)` together
  with `recordSet` (assignment `obj[k] = v`: replace in place if the key is
  present, append otherwise) and `recordLookup`.
* `transformedSubschema` is `Option SubschemaConfig`: `some` plays the role of
  a value for which the external `isSubschemaConfig` predicate holds, `none`
  the role of any other value (`continue` branches in the source).
* Opaque JavaScript values that the merger only moves around (subschema
  handles, AST nodes, scalar serializer functions, extension values, enum
  value configs) are modelled as `Nat` identities.
* Thrown JavaScript `Error`s become `Except MergeError`; each source `throw`
  maps to one constructor carrying the data interpolated into its message.
* The pluggable override functions (`typeCandidateMerger`, `fieldConfigMerger`,
  `inputFieldConfigMerger`, `enumValueConfigMerger`, `typeDescriptionsMerger`)
  of `TypeMergingOptions` are not modelled; the embedding fixes the default
  mergers, which is the subject of all the claims.  The only modelled option
  is `useNonNullableFieldOnConflict`.
* The AST folding performed by the external `@graphql-tools/merge` helpers
  (`mergeType`, `mergeScalar`, ...) is outside this repository; merged output
  types therefore do not carry a folded `astNode`.  The order in which the
  candidates' AST nodes are fed to that fold (`pluckAstNode`) is modelled.
-/

namespace Stitch

/-! ## Ordered-record primitives (JavaScript object semantics) -/

/-- Assignment `obj[k] = v` on an insertion-ordered record: if the key is
already present its value is replaced in place, otherwise the binding is
appended at the end. -/
def recordSet {α : Type} : List (String × α) → String → α → List (String × α)
  | [], k, v => [(k, v)]
  | p :: rest, k, v => if p.1 = k then (k, v) :: rest else p :: recordSet rest k v

/-- Property read `obj[k]` on an insertion-ordered record. -/
def recordLookup {α : Type} : List (String × α) → String → Option α
  | [], _ => none
  | p :: rest, k => if p.1 = k then some p.2 else recordLookup rest k

/-- `Object.values(obj)` for an insertion-ordered record. -/
def recordValues {α : Type} (m : List (String × α)) : List α := m.map Prod.snd

/-- `Object.keys(obj)` for an insertion-ordered record. -/
def recordKeys {α : Type} (m : List (String × α)) : List String := m.map Prod.fst

/-- Sequence of assignments `for (k, v) of l: obj[k] = v` starting from `m`. -/
def recordSetAll {α : Type} (m : List (String × α)) : List (String × α) → List (String × α)
  | [] => m
  | p :: rest => recordSetAll (recordSet m p.1 p.2) rest

/-- First-of `a`, falling back to `b`. -/
def optionOr {α : Type} (a b : Option α) : Option α :=
  match a with
  | some v => some v
  | none => b

/-- Value of the LAST binding of key `k` in a list of bindings (the value an
insertion-ordered record ends up with after assigning every binding in
order). -/
def lookupLast {α : Type} : List (String × α) → String → Option α
  | [], _ => none
  | p :: rest, k => optionOr (lookupLast rest k) (if p.1 = k then some p.2 else none)

/-- `Object.assign({}, ...objects)`: fold every binding of every object, in
order, into one fresh record — a later binding of a key overwrites an earlier
one. -/
def objectAssign {α : Type} (ms : List (List (String × α))) : List (String × α) :=
  ms.foldl recordSetAll []

/-! ## GraphQL data model (the slice the merger inspects) -/

/-- A GraphQL output type as far as nullability is concerned: a base type name
plus whether it is wrapped in non-null (`String` vs `String!`). -/
structure FieldType where
  base : String
  nonNull : Bool
deriving DecidableEq, Repr

/-- `isNullableType` from graphql-js. -/
def isNullableType (t : FieldType) : Bool := !t.nonNull

/-- `getNullableType` from graphql-js: strip an outer non-null wrapper. -/
def getNullableType (t : FieldType) : FieldType := { t with nonNull := false }

/-- One field configuration (`GraphQLFieldConfig`). -/
structure GraphQLFieldConfig where
  type : FieldType
  description : Option String := none
  astNode : Option Nat := none
deriving DecidableEq, Repr

/-- One input field configuration (`GraphQLInputFieldConfig`). -/
structure GraphQLInputFieldConfig where
  type : FieldType
  description : Option String := none
deriving DecidableEq, Repr

/-- One enum value configuration, opaque to the merger. -/
structure EnumValueConfig where
  id : Nat
deriving DecidableEq, Repr

/-- A named reference to another type (an interface implemented by an object
type, or a member object type of a union): the name used as record key plus an
identity distinguishing the per-subgraph objects carrying that name. -/
structure NamedRef where
  name : String
  id : Nat
deriving DecidableEq, Repr

/-- Merge configuration of one field: `{ canonical?: bool }`. -/
structure MergedFieldEntry where
  canonical : Bool := false
deriving DecidableEq, Repr

/-- Merge configuration of one type:
`{ canonical?: bool, fields?: { [fieldName]: { canonical?: bool } } }`. -/
structure MergedTypeEntry where
  canonical : Bool := false
  fields : Option (List (String × MergedFieldEntry)) := none
deriving DecidableEq, Repr

/-- The slice of a subschema configuration the merger reads: the per-type-name
merge map. -/
structure SubschemaConfig where
  merge : Option (List (String × MergedTypeEntry)) := none
deriving DecidableEq, Repr

/-- `transformedSubschema.merge?.[typeName]?.canonical` (with optional
chaining collapsing any missing link to `false`). -/
def SubschemaConfig.typeCanonical (s : SubschemaConfig) (typeName : String) : Bool :=
  match s.merge with
  | none => false
  | some m =>
    match recordLookup m typeName with
    | none => false
    | some e => e.canonical

/-- `transformedSubschema.merge?.[typeName]?.fields?.[fieldName]?.canonical`. -/
def SubschemaConfig.fieldCanonical (s : SubschemaConfig) (typeName fieldName : String) : Bool :=
  match s.merge with
  | none => false
  | some m =>
    match recordLookup m typeName with
    | none => false
    | some e =>
      match e.fields with
      | none => false
      | some fm =>
        match recordLookup fm fieldName with
        | none => false
        | some fe => fe.canonical

/-- Data of a `GraphQLObjectType` (also reused for `GraphQLInterfaceType`,
whose config carries the same components the merger touches). -/
structure ObjectTypeData where
  name : String
  description : Option String := none
  fields : List (String × GraphQLFieldConfig) := []
  interfaces : List NamedRef := []
  astNode : Option Nat := none
  extensions : Option (List (String × Nat)) := none
deriving DecidableEq, Repr

/-- Data of a `GraphQLInputObjectType`. -/
structure InputObjectTypeData where
  name : String
  description : Option String := none
  fields : List (String × GraphQLInputFieldConfig) := []
  astNode : Option Nat := none
  extensions : Option (List (String × Nat)) := none
deriving DecidableEq, Repr

/-- Data of a `GraphQLUnionType`. -/
structure UnionTypeData where
  name : String
  description : Option String := none
  types : List NamedRef := []
  astNode : Option Nat := none
  extensions : Option (List (String × Nat)) := none
deriving DecidableEq, Repr

/-- Data of a `GraphQLEnumType`. -/
structure EnumTypeData where
  name : String
  description : Option String := none
  values : List (String × EnumValueConfig) := []
  astNode : Option Nat := none
  extensions : Option (List (String × Nat)) := none
deriving DecidableEq, Repr

/-- Data of a `GraphQLScalarType`.  `serialize`, `parseValue` and
`parseLiteral` are opaque function identities. -/
structure ScalarTypeData where
  name : String
  description : Option String := none
  serialize : Option Nat := none
  parseValue : Option Nat := none
  parseLiteral : Option Nat := none
  specifiedByURL : Option String := none
  astNode : Option Nat := none
  extensions : Option (List (String × Nat)) := none
deriving DecidableEq, Repr

/-- `GraphQLNamedType`: the six GraphQL named-type categories. -/
inductive GraphQLNamedType where
  | object (o : ObjectTypeData)
  | interface (o : ObjectTypeData)
  | inputObject (d : InputObjectTypeData)
  | union (d : UnionTypeData)
  | enum (d : EnumTypeData)
  | scalar (s : ScalarTypeData)
deriving DecidableEq, Repr

/-- The GraphQL type category, i.e. the `constructor` compared by
`mergeCandidates` and the predicate (`isObjectType`, ...) driving dispatch. -/
inductive TypeCategory where
  | object
  | interface
  | inputObject
  | union
  | enum
  | scalar
deriving DecidableEq, Repr

def GraphQLNamedType.category : GraphQLNamedType → TypeCategory
  | .object _ => .object
  | .interface _ => .interface
  | .inputObject _ => .inputObject
  | .union _ => .union
  | .enum _ => .enum
  | .scalar _ => .scalar

def GraphQLNamedType.name : GraphQLNamedType → String
  | .object o => o.name
  | .interface o => o.name
  | .inputObject d => d.name
  | .union d => d.name
  | .enum d => d.name
  | .scalar s => s.name

def GraphQLNamedType.description : GraphQLNamedType → Option String
  | .object o => o.description
  | .interface o => o.description
  | .inputObject d => d.description
  | .union d => d.description
  | .enum d => d.description
  | .scalar s => s.description

def GraphQLNamedType.astNode : GraphQLNamedType → Option Nat
  | .object o => o.astNode
  | .interface o => o.astNode
  | .inputObject d => d.astNode
  | .union d => d.astNode
  | .enum d => d.astNode
  | .scalar s => s.astNode

def GraphQLNamedType.extensions : GraphQLNamedType → Option (List (String × Nat))
  | .object o => o.extensions
  | .interface o => o.extensions
  | .inputObject d => d.extensions
  | .union d => d.extensions
  | .enum d => d.extensions
  | .scalar s => s.extensions

/-- `candidate.type['serialize']`: present only on scalar types. -/
def GraphQLNamedType.serializeOf : GraphQLNamedType → Option Nat
  | .scalar s => s.serialize
  | _ => none

def GraphQLNamedType.parseValueOf : GraphQLNamedType → Option Nat
  | .scalar s => s.parseValue
  | _ => none

def GraphQLNamedType.parseLiteralOf : GraphQLNamedType → Option Nat
  | .scalar s => s.parseLiteral
  | _ => none

/-- `'specifiedByURL' in candidate.type ? candidate.type.specifiedByURL : undefined`. -/
def GraphQLNamedType.specifiedByURLOf : GraphQLNamedType → Option String
  | .scalar s => s.specifiedByURL
  | _ => none

/-- The field map of an object or interface type config (`toConfig().fields`);
empty for the other categories. -/
def objectFieldsOf : GraphQLNamedType → List (String × GraphQLFieldConfig)
  | .object o => o.fields
  | .interface o => o.fields
  | _ => []

/-- `'interfaces' in typeConfig ? typeConfig.interfaces : []`. -/
def interfacesOf : GraphQLNamedType → List NamedRef
  | .object o => o.interfaces
  | .interface o => o.interfaces
  | _ => []

def enumValuesOf : GraphQLNamedType → List (String × EnumValueConfig)
  | .enum d => d.values
  | _ => []

def inputFieldsOf : GraphQLNamedType → List (String × GraphQLInputFieldConfig)
  | .inputObject d => d.fields
  | _ => []

/-! ## Candidates, options, errors -/

/-- `MergeTypeCandidate`: one subgraph's contribution for a type name. -/
structure MergeTypeCandidate where
  type : GraphQLNamedType
  subschema : Nat
  transformedSubschema : Option SubschemaConfig := none
deriving DecidableEq, Repr

/-- The modelled slice of `TypeMergingOptions` (see the module comment: the
pluggable merger overrides are fixed to the defaults). -/
structure TypeMergingOptions where
  useNonNullableFieldOnConflict : Bool := false
deriving DecidableEq, Repr

/-- The `Error`s thrown by `mergeCandidates.ts`, one constructor per distinct
throw site, carrying the data interpolated into the message. -/
inductive MergeError where
  | categoryMismatch (typeName : String)
  | multipleCanonical (typeName : String)
  | multipleCanonicalField (typeName fieldName : String)
  | expectedUnion (typeName : String)
  | missingRequired (msg : String)
  | unknownCategory (typeName : String)
deriving DecidableEq, Repr

/-! ## Ordering and canonical resolution -/

/-- The canonical predicate of `defaultTypeCandidateMerger`:
`isSubschemaConfig(transformedSubschema) ? transformedSubschema.merge?.[type.name]?.canonical : false`. -/
def typeCanonicalOf (c : MergeTypeCandidate) : Bool :=
  match c.transformedSubschema with
  | some s => s.typeCanonical c.type.name
  | none => false

/-- `defaultTypeCandidateMerger`. -/
def defaultTypeCandidateMerger (candidates : List MergeTypeCandidate) :
    Except MergeError MergeTypeCandidate :=
  let canonical := candidates.filter typeCanonicalOf
  if 1 < canonical.length then
    match canonical.head? with
    | none => .error (.missingRequired "First canonical is required")
    | some c0 => .error (.multipleCanonical c0.type.name)
  else if canonical.length ≠ 0 then
    match canonical.head? with
    | none => .error (.missingRequired "First canonical is required")
    | some c0 => .ok c0
  else
    match candidates.getLast? with
    | none => .error (.missingRequired "Last canonical is required")
    | some lastCanonical => .ok lastCanonical

/-- `orderedTypeCandidates` (with the default type-candidate merger): move the
chosen candidate to the end, keeping the others in order. -/
def orderedTypeCandidates (candidates : List MergeTypeCandidate)
    (_typeMergingOptions : TypeMergingOptions) :
    Except MergeError (List MergeTypeCandidate) :=
  match defaultTypeCandidateMerger candidates with
  | .error e => .error e
  | .ok candidate => .ok (candidates.filter (fun c => c ≠ candidate) ++ [candidate])

/-- `defaultTypeDescriptionMerger`: the last candidate's description. -/
def defaultTypeDescriptionMerger (candidates : List MergeTypeCandidate) : Option String :=
  match candidates.getLast? with
  | none => none
  | some lastCandidate => lastCandidate.type.description

/-- `mergeTypeDescriptions` (with the default description merger). -/
def mergeTypeDescriptions (candidates : List MergeTypeCandidate)
    (_typeMergingOptions : TypeMergingOptions) : Option String :=
  defaultTypeDescriptionMerger candidates

/-! ## pluck -/

/-- `pluck('astNode', candidates)`. -/
def pluckAstNode (candidates : List MergeTypeCandidate) : List Nat :=
  candidates.filterMap (fun c => c.type.astNode)

/-- `pluck('extensions', candidates)`. -/
def pluckExtensions (candidates : List MergeTypeCandidate) : List (List (String × Nat)) :=
  candidates.filterMap (fun c => c.type.extensions)

/-! ## Field-level merger -/

/-- `MergeFieldConfigCandidate` (the owning type is represented by its name,
the only component the merger reads from it). -/
structure MergeFieldConfigCandidate where
  fieldConfig : GraphQLFieldConfig
  fieldName : String
  typeName : String
  subschema : Nat
  transformedSubschema : Option SubschemaConfig := none
deriving DecidableEq, Repr

/-- `isSubschemaConfig(transformedSubschema)` for a field candidate: the
`continue` guard of the tally loop. -/
def isEligible (c : MergeFieldConfigCandidate) : Bool :=
  c.transformedSubschema.isSome

/-- `transformedSubschema.merge?.[type.name]?.fields?.[fieldName]?.canonical`. -/
def fieldCanonicalOf (c : MergeFieldConfigCandidate) : Bool :=
  match c.transformedSubschema with
  | some s => s.fieldCanonical c.typeName c.fieldName
  | none => false

/-- `transformedSubschema.merge?.[type.name]?.canonical` for a field candidate. -/
def typeCanonicalOfField (c : MergeFieldConfigCandidate) : Bool :=
  match c.transformedSubschema with
  | some s => s.typeCanonical c.typeName
  | none => false

/-- A candidate that reaches the `canonicalByField.push` of the tally loop: it
passed the `isSubschemaConfig` guard and its field is marked canonical. -/
def eligibleFieldCanonical (c : MergeFieldConfigCandidate) : Bool :=
  isEligible c && fieldCanonicalOf c

/-- A candidate that reaches the `canonicalByType.push` of the tally loop
(`else if` branch: not canonical by field, but the type is canonical). -/
def eligibleTypeCanonical (c : MergeFieldConfigCandidate) : Bool :=
  isEligible c && !fieldCanonicalOf c && typeCanonicalOfField c

/-- A candidate that reaches the `nullables.push` of the tally loop. -/
def eligibleNullable (c : MergeFieldConfigCandidate) : Bool :=
  isEligible c && isNullableType c.fieldConfig.type

/-- A candidate that reaches the `nonNullables.push` of the tally loop. -/
def eligibleNonNullable (c : MergeFieldConfigCandidate) : Bool :=
  isEligible c && !isNullableType c.fieldConfig.type

/-- The `canonicalByField` list pushed by the tally loop. -/
def canonicalByFieldList (candidates : List MergeFieldConfigCandidate) :
    List GraphQLFieldConfig :=
  candidates.filterMap (fun c =>
    if eligibleFieldCanonical c then some c.fieldConfig else none)

/-- The `canonicalByType` list pushed by the tally loop. -/
def canonicalByTypeList (candidates : List MergeFieldConfigCandidate) :
    List GraphQLFieldConfig :=
  candidates.filterMap (fun c =>
    if eligibleTypeCanonical c then some c.fieldConfig else none)

/-- The `nullables` list pushed by the tally loop (eligible candidates only). -/
def nullablesList (candidates : List MergeFieldConfigCandidate) : List GraphQLFieldConfig :=
  candidates.filterMap (fun c =>
    if eligibleNullable c then some c.fieldConfig else none)

/-- The `nonNullables` list pushed by the tally loop (eligible candidates
only). -/
def nonNullablesList (candidates : List MergeFieldConfigCandidate) : List GraphQLFieldConfig :=
  candidates.filterMap (fun c =>
    if eligibleNonNullable c then some c.fieldConfig else none)

/-- There is an eligible candidate with a nullable field type. -/
def hasEligibleNullable (candidates : List MergeFieldConfigCandidate) : Bool :=
  candidates.any eligibleNullable

/-- There is an eligible candidate with a non-nullable field type. -/
def hasEligibleNonNullable (candidates : List MergeFieldConfigCandidate) : Bool :=
  candidates.any eligibleNonNullable

/-- The `nonNullableFinalField` condition of the default field-config merger,
phrased through existence of eligible candidates on both sides of the
nullability conflict. -/
def relaxCondition (useNonNullableFieldOnConflict : Bool)
    (candidates : List MergeFieldConfigCandidate) : Bool :=
  hasEligibleNonNullable candidates && hasEligibleNullable candidates &&
    useNonNullableFieldOnConflict

/-- `{ ...finalField, type: getNullableType(finalField.type) }` when the
nullability-conflict flag fires, `finalField` unchanged otherwise. -/
def relaxIf (cond : Bool) (f : GraphQLFieldConfig) : GraphQLFieldConfig :=
  if cond then { f with type := getNullableType f.type } else f

/-- `getDefaultFieldConfigMerger(useNonNullableFieldOnConflict)` applied to a
candidate list. -/
def defaultFieldConfigMerger (useNonNullableFieldOnConflict : Bool)
    (candidates : List MergeFieldConfigCandidate) : Except MergeError GraphQLFieldConfig :=
  let nullables := nullablesList candidates
  let nonNullables := nonNullablesList candidates
  let canonicalByField := canonicalByFieldList candidates
  let canonicalByType := canonicalByTypeList candidates
  let nonNullableFinalField :=
    decide (0 < nonNullables.length) && decide (0 < nullables.length) &&
      useNonNullableFieldOnConflict
  if 1 < canonicalByField.length ∧ candidates ≠ [] then
    match candidates.head? with
    | none => .error (.missingRequired "First candidate is required")
    | some c0 => .error (.multipleCanonicalField c0.typeName c0.fieldName)
  else if canonicalByField.length ≠ 0 then
    match canonicalByField.head? with
    | none => .error (.missingRequired "Final field is required")
    | some finalField => .ok (relaxIf nonNullableFinalField finalField)
  else if canonicalByType.length ≠ 0 then
    match canonicalByType.head? with
    | none => .error (.missingRequired "Final field is required")
    | some finalField => .ok (relaxIf nonNullableFinalField finalField)
  else
    match candidates.getLast? with
    | none => .error (.missingRequired "Field config is required")
    | some c => .ok (relaxIf nonNullableFinalField c.fieldConfig)

/-- Modelled from the spec: `validateFieldConsistency` lives in
`mergeValidations.js`, which is not among the sources; section 4.7 of the spec
states the default consistency policy is permissive and never blocks, so the
default validator is modelled as always succeeding. -/
def validateFieldConsistency (_finalFieldConfig : GraphQLFieldConfig)
    (_candidates : List MergeFieldConfigCandidate)
    (_typeMergingOptions : TypeMergingOptions) : Except MergeError Unit :=
  .ok ()

/-- `mergeFieldConfigs` (with the default field-config merger). -/
def mergeFieldConfigs (candidates : List MergeFieldConfigCandidate)
    (typeMergingOptions : TypeMergingOptions) : Except MergeError GraphQLFieldConfig :=
  match defaultFieldConfigMerger typeMergingOptions.useNonNullableFieldOnConflict candidates with
  | .error e => .error e
  | .ok finalFieldConfig =>
    match validateFieldConsistency finalFieldConfig candidates typeMergingOptions with
    | .error e => .error e
    | .ok _ => .ok finalFieldConfig

/-- The `fieldConfigCandidate` record built for one field of one candidate. -/
def mkFieldCandidate (c : MergeTypeCandidate) (p : String × GraphQLFieldConfig) :
    MergeFieldConfigCandidate :=
  { fieldConfig := p.2, fieldName := p.1, typeName := c.type.name,
    subschema := c.subschema, transformedSubschema := c.transformedSubschema }

/-- One step of the grouping loop of `fieldConfigMapFromTypeCandidates`:
append the candidate to the record entry of the field name (creating it if
absent). -/
def addFieldCandidate (c : MergeTypeCandidate)
    (a : List (String × List MergeFieldConfigCandidate))
    (p : String × GraphQLFieldConfig) : List (String × List MergeFieldConfigCandidate) :=
  match recordLookup a p.1 with
  | some l => recordSet a p.1 (l ++ [mkFieldCandidate c p])
  | none => recordSet a p.1 [mkFieldCandidate c p]

/-- The per-field candidate grouping built by
`fieldConfigMapFromTypeCandidates`: iterate the candidates, and for every field
of a candidate append a field-config candidate to the record entry of that
field name. -/
def fieldCandidatesMap (candidates : List MergeTypeCandidate) :
    List (String × List MergeFieldConfigCandidate) :=
  candidates.foldl (fun acc c =>
    (objectFieldsOf c.type).foldl (addFieldCandidate c) acc) []

/-- The second loop of `fieldConfigMapFromTypeCandidates`: merge each field
group in order. -/
def mergeFieldGroups (typeMergingOptions : TypeMergingOptions) :
    List (String × List MergeFieldConfigCandidate) →
    Except MergeError (List (String × GraphQLFieldConfig))
  | [] => .ok []
  | p :: rest =>
    match mergeFieldConfigs p.2 typeMergingOptions with
    | .error e => .error e
    | .ok f =>
      match mergeFieldGroups typeMergingOptions rest with
      | .error e => .error e
      | .ok r => .ok ((p.1, f) :: r)

/-- `fieldConfigMapFromTypeCandidates`. -/
def fieldConfigMapFromTypeCandidates (candidates : List MergeTypeCandidate)
    (typeMergingOptions : TypeMergingOptions) :
    Except MergeError (List (String × GraphQLFieldConfig)) :=
  mergeFieldGroups typeMergingOptions (fieldCandidatesMap candidates)

/-! ## Interface map and per-kind mergers -/

/-- The interface map built by the object and interface mergers
(`acc[iface.name] = iface` over every candidate's interface list), also the
member-type map of the union merger. -/
def buildNamedRefMap (refLists : List (List NamedRef)) : List (String × NamedRef) :=
  refLists.foldl (fun acc refs => refs.foldl (fun a i => recordSet a i.name i) acc) []

/-- The key-value pairs fed to `buildNamedRefMap`, flattened. -/
def namedRefPairs (refLists : List (List NamedRef)) : List (String × NamedRef) :=
  (refLists.map (fun l => l.map (fun i => (i.name, i)))).flatten

/-- `mergeObjectTypeCandidates`.  The folded `astNode` (delegated to the
external `mergeType`) and the plucked `extensionASTNodes` are not modelled. -/
def mergeObjectTypeCandidates (typeName : String) (candidates : List MergeTypeCandidate)
    (typeMergingOptions : TypeMergingOptions) : Except MergeError GraphQLNamedType :=
  match orderedTypeCandidates candidates typeMergingOptions with
  | .error e => .error e
  | .ok cs =>
    match fieldConfigMapFromTypeCandidates cs typeMergingOptions with
    | .error e => .error e
    | .ok fields =>
      .ok (.object
        { name := typeName,
          description := mergeTypeDescriptions cs typeMergingOptions,
          fields := fields,
          interfaces := recordValues (buildNamedRefMap (cs.map (fun c => interfacesOf c.type))),
          astNode := none,
          extensions := some (objectAssign (pluckExtensions cs)) })

/-- `mergeInterfaceTypeCandidates` (same shape as the object merger). -/
def mergeInterfaceTypeCandidates (typeName : String) (candidates : List MergeTypeCandidate)
    (typeMergingOptions : TypeMergingOptions) : Except MergeError GraphQLNamedType :=
  match orderedTypeCandidates candidates typeMergingOptions with
  | .error e => .error e
  | .ok cs =>
    match fieldConfigMapFromTypeCandidates cs typeMergingOptions with
    | .error e => .error e
    | .ok fields =>
      .ok (.interface
        { name := typeName,
          description := mergeTypeDescriptions cs typeMergingOptions,
          fields := fields,
          interfaces := recordValues (buildNamedRefMap (cs.map (fun c => interfacesOf c.type))),
          astNode := none,
          extensions := some (objectAssign (pluckExtensions cs)) })

/-! ## Input-object merger -/

/-- `MergeInputFieldConfigCandidate`. -/
structure MergeInputFieldConfigCandidate where
  inputFieldConfig : GraphQLInputFieldConfig
  fieldName : String
  typeName : String
  subschema : Nat
  transformedSubschema : Option SubschemaConfig := none
deriving DecidableEq, Repr

/-- `defaultInputFieldConfigMerger`. -/
def defaultInputFieldConfigMerger (candidates : List MergeInputFieldConfigCandidate) :
    Except MergeError GraphQLInputFieldConfig :=
  let canonicalByField := candidates.filterMap (fun c =>
    match c.transformedSubschema with
    | none => none
    | some s =>
      if s.fieldCanonical c.typeName c.fieldName then some c.inputFieldConfig else none)
  let canonicalByType := candidates.filterMap (fun c =>
    match c.transformedSubschema with
    | none => none
    | some s =>
      if !s.fieldCanonical c.typeName c.fieldName && s.typeCanonical c.typeName then
        some c.inputFieldConfig
      else none)
  if 1 < canonicalByField.length ∧ candidates ≠ [] then
    match candidates.head? with
    | none => .error (.missingRequired "First candidate is required")
    | some c0 => .error (.multipleCanonicalField c0.typeName c0.fieldName)
  else if canonicalByField.length ≠ 0 then
    match canonicalByField.head? with
    | none => .error (.missingRequired "Final field is required")
    | some f => .ok f
  else if canonicalByType.length ≠ 0 then
    match canonicalByType.head? with
    | none => .error (.missingRequired "Final field is required")
    | some f => .ok f
  else
    match candidates.getLast? with
    | none => .error (.missingRequired "Last candidate is required")
    | some c => .ok c.inputFieldConfig

/-- Modelled from the spec: `validateInputObjectConsistency` and
`validateInputFieldConsistency` live in `mergeValidations.js`, which is not
among the sources; section 4.7 of the spec states the default consistency
policy is permissive, so the default validators are modelled as always
succeeding (and the field-inclusion tally they would consume is omitted). -/
def validateInputObjectConsistency (_candidates : List MergeTypeCandidate)
    (_typeMergingOptions : TypeMergingOptions) : Except MergeError Unit :=
  .ok ()

/-- Per-input-field grouping of `inputFieldConfigMapFromTypeCandidates`. -/
def inputFieldCandidatesMap (candidates : List MergeTypeCandidate) :
    List (String × List MergeInputFieldConfigCandidate) :=
  candidates.foldl (fun acc c =>
    (inputFieldsOf c.type).foldl (fun a p =>
      let cand : MergeInputFieldConfigCandidate :=
        { inputFieldConfig := p.2, fieldName := p.1, typeName := c.type.name,
          subschema := c.subschema, transformedSubschema := c.transformedSubschema }
      match recordLookup a p.1 with
      | some l => recordSet a p.1 (l ++ [cand])
      | none => recordSet a p.1 [cand]) acc) []

/-- Merge each input-field group in order. -/
def mergeInputFieldGroups :
    List (String × List MergeInputFieldConfigCandidate) →
    Except MergeError (List (String × GraphQLInputFieldConfig))
  | [] => .ok []
  | p :: rest =>
    match defaultInputFieldConfigMerger p.2 with
    | .error e => .error e
    | .ok f =>
      match mergeInputFieldGroups rest with
      | .error e => .error e
      | .ok r => .ok ((p.1, f) :: r)

/-- `mergeInputObjectTypeCandidates`. -/
def mergeInputObjectTypeCandidates (typeName : String) (candidates : List MergeTypeCandidate)
    (typeMergingOptions : TypeMergingOptions) : Except MergeError GraphQLNamedType :=
  match orderedTypeCandidates candidates typeMergingOptions with
  | .error e => .error e
  | .ok cs =>
    match validateInputObjectConsistency cs typeMergingOptions with
    | .error e => .error e
    | .ok _ =>
      match mergeInputFieldGroups (inputFieldCandidatesMap cs) with
      | .error e => .error e
      | .ok fields =>
        .ok (.inputObject
          { name := typeName,
            description := mergeTypeDescriptions cs typeMergingOptions,
            fields := fields,
            astNode := none,
            extensions := some (objectAssign (pluckExtensions cs)) })

/-! ## Union merger -/

/-- The `typeConfigs` map of `mergeUnionTypeCandidates`: every candidate must
be a union type, otherwise the merger throws. -/
def collectUnionTypeLists : List MergeTypeCandidate → Except MergeError (List (List NamedRef))
  | [] => .ok []
  | c :: rest =>
    match c.type with
    | .union d =>
      match collectUnionTypeLists rest with
      | .error e => .error e
      | .ok ls => .ok (d.types :: ls)
    | t => .error (.expectedUnion t.name)

/-- `mergeUnionTypeCandidates`. -/
def mergeUnionTypeCandidates (typeName : String) (candidates : List MergeTypeCandidate)
    (typeMergingOptions : TypeMergingOptions) : Except MergeError GraphQLNamedType :=
  match orderedTypeCandidates candidates typeMergingOptions with
  | .error e => .error e
  | .ok cs =>
    match collectUnionTypeLists cs with
    | .error e => .error e
    | .ok typeLists =>
      .ok (.union
        { name := typeName,
          description := mergeTypeDescriptions cs typeMergingOptions,
          types := recordValues (buildNamedRefMap typeLists),
          astNode := none,
          extensions := some (objectAssign (pluckExtensions cs)) })

/-! ## Enum merger -/

/-- `MergeEnumValueConfigCandidate`. -/
structure MergeEnumValueConfigCandidate where
  enumValueConfig : EnumValueConfig
  enumValue : String
  typeName : String
  subschema : Nat
  transformedSubschema : Option SubschemaConfig := none
deriving DecidableEq, Repr

/-- `defaultEnumValueConfigMerger`: a type-canonical candidate if one exists
(the first found), otherwise the last candidate. -/
def defaultEnumValueConfigMerger (candidates : List MergeEnumValueConfigCandidate) :
    Except MergeError EnumValueConfig :=
  let preferred := candidates.find? (fun c =>
    match c.transformedSubschema with
    | some s => s.typeCanonical c.typeName
    | none => false)
  match candidates.getLast? with
  | none => .error (.missingRequired "Last canonical is required")
  | some lastCanonical =>
    .ok (match preferred with
      | some p => p.enumValueConfig
      | none => lastCanonical.enumValueConfig)

/-- Per-enum-value grouping of `enumValueConfigMapFromTypeCandidates`. -/
def enumValueCandidatesMap (candidates : List MergeTypeCandidate) :
    List (String × List MergeEnumValueConfigCandidate) :=
  candidates.foldl (fun acc c =>
    (enumValuesOf c.type).foldl (fun a p =>
      let cand : MergeEnumValueConfigCandidate :=
        { enumValueConfig := p.2, enumValue := p.1, typeName := c.type.name,
          subschema := c.subschema, transformedSubschema := c.transformedSubschema }
      match recordLookup a p.1 with
      | some l => recordSet a p.1 (l ++ [cand])
      | none => recordSet a p.1 [cand]) acc) []

/-- Merge each enum-value group in order. -/
def mergeEnumValueGroups :
    List (String × List MergeEnumValueConfigCandidate) →
    Except MergeError (List (String × EnumValueConfig))
  | [] => .ok []
  | p :: rest =>
    match defaultEnumValueConfigMerger p.2 with
    | .error e => .error e
    | .ok v =>
      match mergeEnumValueGroups rest with
      | .error e => .error e
      | .ok r => .ok ((p.1, v) :: r)

/-- `mergeEnumTypeCandidates`. -/
def mergeEnumTypeCandidates (typeName : String) (candidates : List MergeTypeCandidate)
    (typeMergingOptions : TypeMergingOptions) : Except MergeError GraphQLNamedType :=
  match orderedTypeCandidates candidates typeMergingOptions with
  | .error e => .error e
  | .ok cs =>
    match mergeEnumValueGroups (enumValueCandidatesMap cs) with
    | .error e => .error e
    | .ok values =>
      .ok (.enum
        { name := typeName,
          description := mergeTypeDescriptions cs typeMergingOptions,
          values := values,
          astNode := none,
          extensions := some (objectAssign (pluckExtensions cs)) })

/-! ## Scalar merger -/

/-- The `specifiedByURL` scan of `mergeScalarTypeCandidates`: the first
candidate whose type has a truthy `specifiedByURL` (the empty string is falsy
in JavaScript) supplies the value. -/
def findSpecifiedByURL : List MergeTypeCandidate → Option String
  | [] => none
  | c :: rest =>
    match c.type.specifiedByURLOf with
    | some s => if s ≠ "" then some s else findSpecifiedByURL rest
    | none => findSpecifiedByURL rest

/-- The loop condition of the `specifiedByURL` scan:
`'specifiedByURL' in candidate.type && candidate.type.specifiedByURL` (JavaScript
truthiness: absent, `null` and the empty string all fail). -/
def hasTruthySpecifiedByURL (c : MergeTypeCandidate) : Bool :=
  match c.type.specifiedByURLOf with
  | some s => s != ""
  | none => false

/-- `mergeScalarTypeCandidates`. -/
def mergeScalarTypeCandidates (typeName : String) (candidates : List MergeTypeCandidate)
    (typeMergingOptions : TypeMergingOptions) : Except MergeError GraphQLNamedType :=
  match orderedTypeCandidates candidates typeMergingOptions with
  | .error e => .error e
  | .ok cs =>
    let serializeFns := cs.filterMap (fun c => c.type.serializeOf)
    let parseValueFns := cs.filterMap (fun c => c.type.parseValueOf)
    let parseLiteralFns := cs.filterMap (fun c => c.type.parseLiteralOf)
    .ok (.scalar
      { name := typeName,
        description := mergeTypeDescriptions cs typeMergingOptions,
        serialize := serializeFns.getLast?,
        parseValue := parseValueFns.getLast?,
        parseLiteral := parseLiteralFns.getLast?,
        specifiedByURL := findSpecifiedByURL cs,
        astNode := none,
        extensions := some (objectAssign (pluckExtensions cs)) })

/-! ## Entry point -/

/-- `mergeCandidates`: reject mixed type categories, then dispatch on the
category of the first candidate's type. -/
def mergeCandidates (typeName : String) (candidates : List MergeTypeCandidate)
    (typeMergingOptions : TypeMergingOptions) : Except MergeError GraphQLNamedType :=
  match candidates.head? with
  | none => .error (.unknownCategory typeName)
  | some c0 =>
    if candidates.any (fun c => decide (c.type.category ≠ c0.type.category)) then
      .error (.categoryMismatch typeName)
    else
      match c0.type.category with
      | .object => mergeObjectTypeCandidates typeName candidates typeMergingOptions
      | .inputObject => mergeInputObjectTypeCandidates typeName candidates typeMergingOptions
      | .interface => mergeInterfaceTypeCandidates typeName candidates typeMergingOptions
      | .union => mergeUnionTypeCandidates typeName candidates typeMergingOptions
      | .enum => mergeEnumTypeCandidates typeName candidates typeMergingOptions
      | .scalar => mergeScalarTypeCandidates typeName candidates typeMergingOptions

/-! ## Concrete instances used by the verification below -/

/-- A subschema config marking type `T` canonical. -/
def subCanonT : Option SubschemaConfig :=
  some { merge := some [("T", { canonical := true, fields := none })] }

/-- A subschema config marking type `S` canonical. -/
def subCanonS : Option SubschemaConfig :=
  some { merge := some [("S", { canonical := true, fields := none })] }

def cfgA : GraphQLFieldConfig := { type := { base := "String", nonNull := false } }

def cfgB : GraphQLFieldConfig := { type := { base := "Int", nonNull := false } }

/-- Field candidate for `T.f` from a subgraph marking `T` canonical. -/
def cA : MergeFieldConfigCandidate :=
  { fieldConfig := cfgA, fieldName := "f", typeName := "T", subschema := 0,
    transformedSubschema := subCanonT }

/-- A second field candidate for `T.f`, also from a subgraph marking `T`
canonical. -/
def cB : MergeFieldConfigCandidate :=
  { fieldConfig := cfgB, fieldName := "f", typeName := "T", subschema := 1,
    transformedSubschema := subCanonT }

def cfgNul : GraphQLFieldConfig := { type := { base := "String", nonNull := false } }

def cfgNon : GraphQLFieldConfig := { type := { base := "String", nonNull := true } }

/-- `cfgNon` with its type relaxed to nullable. -/
def cfgNonRelaxed : GraphQLFieldConfig := { type := { base := "String", nonNull := false } }

/-- Nullable candidate for `Foo.bar` whose `transformedSubschema` is not a
recognized subschema config (ineligible). -/
def cNul : MergeFieldConfigCandidate :=
  { fieldConfig := cfgNul, fieldName := "bar", typeName := "Foo", subschema := 0,
    transformedSubschema := none }

/-- Non-nullable eligible candidate for `Foo.bar` (no canonical marks). -/
def cNon : MergeFieldConfigCandidate :=
  { fieldConfig := cfgNon, fieldName := "bar", typeName := "Foo", subschema := 1,
    transformedSubschema := some { merge := none } }

/-- Nullable ELIGIBLE candidate for `Foo.bar` (no canonical marks). -/
def cNulE : MergeFieldConfigCandidate :=
  { fieldConfig := cfgNul, fieldName := "bar", typeName := "Foo", subschema := 2,
    transformedSubschema := some { merge := none } }

def scData1 : ScalarTypeData :=
  { name := "S", serialize := some 1, parseValue := some 1, parseLiteral := some 1,
    specifiedByURL := some "u1" }

def scData2 : ScalarTypeData :=
  { name := "S", serialize := some 2, parseValue := some 2, parseLiteral := some 2,
    specifiedByURL := some "u2" }

/-- Scalar candidate whose subgraph marks `S` canonical. -/
def sc1 : MergeTypeCandidate :=
  { type := .scalar scData1, subschema := 0, transformedSubschema := subCanonS }

/-- Plain scalar candidate. -/
def sc2 : MergeTypeCandidate :=
  { type := .scalar scData2, subschema := 1, transformedSubschema := none }

/-- The scalar type produced by merging `[sc1, sc2]`. -/
def mergedS12 : ScalarTypeData :=
  { name := "S", serialize := some 1, parseValue := some 1, parseLiteral := some 1,
    specifiedByURL := some "u2", extensions := some [] }

/-- Scalar candidate with an empty (falsy) `specifiedByURL`. -/
def sc3 : MergeTypeCandidate :=
  { type := .scalar { name := "S", specifiedByURL := some "" }, subschema := 0 }

def sc4 : MergeTypeCandidate :=
  { type := .scalar { name := "S", specifiedByURL := some "u4" }, subschema := 1 }

/-- The scalar type produced by merging `[sc3, sc4]`. -/
def mergedS34 : ScalarTypeData :=
  { name := "S", specifiedByURL := some "u4", extensions := some [] }

def ocData1 : ObjectTypeData :=
  { name := "T", description := some "a", fields := [("f", cfgA)],
    interfaces := [{ name := "A", id := 10 }], extensions := some [("x", 1), ("y", 2)] }

def ocData2 : ObjectTypeData :=
  { name := "T", description := some "b", fields := [("f", cfgB), ("g", cfgA)],
    interfaces := [{ name := "A", id := 20 }, { name := "B", id := 21 }],
    extensions := some [("y", 3), ("z", 4)] }

def oc1 : MergeTypeCandidate := { type := .object ocData1, subschema := 0 }

def oc2 : MergeTypeCandidate := { type := .object ocData2, subschema := 1 }

/-- The object type data produced by merging `[oc1, oc2]`. -/
def mergedO12 : ObjectTypeData :=
  { name := "T", description := some "b",
    fields := [("f", cfgB), ("g", cfgA)],
    interfaces := [{ name := "A", id := 20 }, { name := "B", id := 21 }],
    extensions := some [("x", 1), ("y", 3), ("z", 4)] }

/-- The extensions record of `mergedO12`. -/
def extW9 : List (String × Nat) := [("x", 1), ("y", 3), ("z", 4)]

def pcData1 : ObjectTypeData := { name := "T", description := some "plain" }

def pcData2 : ObjectTypeData :=
  { name := "T", description := some "canon", extensions := some [("k", 7)], astNode := some 3 }

def pc1 : MergeTypeCandidate := { type := .object pcData1, subschema := 0 }

/-- Object candidate whose subgraph marks `T` canonical. -/
def pc2 : MergeTypeCandidate :=
  { type := .object pcData2, subschema := 1, transformedSubschema := subCanonT }

/-! ## Lemmas about ordered records -/

theorem optionOr_none_right {α : Type} (a : Option α) : optionOr a none = a := by
  cases a <;> rfl

theorem optionOr_assoc {α : Type} (a b c : Option α) :
    optionOr (optionOr a b) c = optionOr a (optionOr b c) := by
  cases a <;> rfl

theorem recordLookup_recordSet {α : Type} (m : List (String × α)) (k k' : String) (v : α) :
    recordLookup (recordSet m k v) k' = if k' = k then some v else recordLookup m k' := by
  induction m with
  | nil =>
    by_cases h : k' = k
    · subst h
      simp [recordSet, recordLookup]
    · have h2 : ¬ k = k' := fun he => h he.symm
      simp [recordSet, recordLookup, h, h2]
  | cons p rest ih =>
    by_cases hp : p.1 = k
    · rw [recordSet]
      simp only [hp, if_true]
      rw [recordLookup]
      by_cases h : k' = k
      · simp [h]
      · have h2 : ¬ k = k' := fun he => h he.symm
        have h3 : ¬ p.1 = k' := by rw [hp]; exact h2
        simp only [h2, if_false, h, if_false, recordLookup, h3]
    · rw [recordSet]
      simp only [hp, if_false]
      rw [recordLookup]
      by_cases hq : p.1 = k'
      · have hk : ¬ k' = k := fun he => hp (by rw [hq, he])
        simp [recordLookup, hq, hk]
      · simp only [hq, if_false, ih]
        rw [recordLookup]
        simp [hq]

theorem recordKeys_recordSet {α : Type} (m : List (String × α)) (k : String) (v : α) :
    recordKeys (recordSet m k v) =
      if k ∈ recordKeys m then recordKeys m else recordKeys m ++ [k] := by
  induction m with
  | nil => simp [recordSet, recordKeys]
  | cons p rest ih =>
    by_cases hp : p.1 = k
    · have hmem : k ∈ recordKeys (p :: rest) := by
        simp [recordKeys]
        exact Or.inl hp.symm
      rw [recordSet]
      simp only [hp, if_true, hmem, if_true]
      simp [recordKeys, hp]
    · have hkp : ¬ k = p.1 := fun he => hp he.symm
      rw [recordSet]
      simp only [hp, if_false]
      by_cases hm : k ∈ recordKeys rest
      · have hmem : k ∈ recordKeys (p :: rest) := by
          simp only [recordKeys, List.map_cons, List.mem_cons]
          exact Or.inr hm
        simp only [hmem, if_true]
        simp only [recordKeys, List.map_cons] at ih ⊢
        rw [ih]
        simp only [recordKeys] at hm
        simp [hm]
      · have hmem : k ∉ recordKeys (p :: rest) := by
          simp only [recordKeys, List.map_cons, List.mem_cons]
          push_neg
          exact ⟨hkp, by simpa [recordKeys] using hm⟩
        simp only [hmem, if_false]
        simp only [recordKeys, List.map_cons] at ih ⊢
        rw [ih]
        simp only [recordKeys] at hm
        simp [hm]

theorem keysNodup_recordSet {α : Type} {m : List (String × α)} (k : String) (v : α)
    (h : (recordKeys m).Nodup) : (recordKeys (recordSet m k v)).Nodup := by
  rw [recordKeys_recordSet]
  by_cases hm : k ∈ recordKeys m
  · simpa [hm] using h
  · simp only [hm, if_false]
    simp [List.nodup_append, h, List.Disjoint]
    intro a ha hak
    exact hm (hak ▸ ha)

theorem recordLookup_recordSetAll {α : Type} (l : List (String × α))
    (m : List (String × α)) (k : String) :
    recordLookup (recordSetAll m l) k = optionOr (lookupLast l k) (recordLookup m k) := by
  induction l generalizing m with
  | nil => simp [recordSetAll, lookupLast, optionOr]
  | cons p rest ih =>
    rw [recordSetAll, ih, lookupLast, optionOr_assoc, recordLookup_recordSet]
    cases lookupLast rest k with
    | some v => rfl
    | none =>
      by_cases h : p.1 = k
      · simp [optionOr, h]
      · have : ¬ k = p.1 := fun he => h he.symm
        simp [optionOr, h, this]

theorem keysNodup_recordSetAll {α : Type} (l : List (String × α))
    {m : List (String × α)} (h : (recordKeys m).Nodup) :
    (recordKeys (recordSetAll m l)).Nodup := by
  induction l generalizing m with
  | nil => simpa [recordSetAll] using h
  | cons p rest ih => exact ih (keysNodup_recordSet p.1 p.2 h)

theorem lookupLast_append {α : Type} (a b : List (String × α)) (k : String) :
    lookupLast (a ++ b) k = optionOr (lookupLast b k) (lookupLast a k) := by
  induction a with
  | nil => simp [lookupLast, optionOr_none_right]
  | cons p rest ih =>
    rw [List.cons_append, lookupLast, ih, lookupLast, optionOr_assoc]

theorem recordLookup_append {α : Type} (a b : List (String × α)) (k : String) :
    recordLookup (a ++ b) k = optionOr (recordLookup a k) (recordLookup b k) := by
  induction a with
  | nil => simp [recordLookup, optionOr]
  | cons p rest ih =>
    by_cases hp : p.1 = k <;> simp [recordLookup, hp, optionOr, ih]

theorem lookupLast_eq_recordLookup_reverse {α : Type} (l : List (String × α)) (k : String) :
    lookupLast l k = recordLookup l.reverse k := by
  induction l with
  | nil => rfl
  | cons p rest ih =>
    rw [lookupLast, List.reverse_cons, recordLookup_append, ih]
    simp [recordLookup]

theorem recordLookup_isSome_iff {α : Type} (m : List (String × α)) (k : String) :
    (recordLookup m k).isSome = true ↔ k ∈ recordKeys m := by
  induction m with
  | nil => simp [recordLookup, recordKeys]
  | cons p rest ih =>
    by_cases hp : p.1 = k
    · simp only [recordLookup, hp, if_true, Option.isSome_some, true_iff, recordKeys,
        List.map_cons, List.mem_cons]
      exact Or.inl trivial
    · have hkp : ¬ k = p.1 := fun he => hp he.symm
      simp only [recordLookup, hp, if_false, recordKeys, List.map_cons, List.mem_cons] at ih ⊢
      simp [ih, hkp]

theorem lookupLast_isSome_iff {α : Type} (l : List (String × α)) (k : String) :
    (lookupLast l k).isSome = true ↔ k ∈ recordKeys l := by
  rw [lookupLast_eq_recordLookup_reverse, recordLookup_isSome_iff]
  simp [recordKeys, List.map_reverse]

theorem lookupLast_eq_recordLookup_of_nodup {α : Type} {l : List (String × α)}
    (h : (recordKeys l).Nodup) (k : String) : lookupLast l k = recordLookup l k := by
  induction l with
  | nil => rfl
  | cons p rest ih =>
    rw [recordKeys] at h
    simp only [List.map_cons, List.nodup_cons] at h
    by_cases hp : p.1 = k
    · have : k ∉ recordKeys rest := by
        rw [← hp]; exact h.1
      have hnone : lookupLast rest k = none := by
        cases hl : lookupLast rest k with
        | none => rfl
        | some v =>
          exact absurd ((lookupLast_isSome_iff rest k).1 (by simp [hl])) this
      simp [lookupLast, recordLookup, hp, hnone, optionOr]
    · simp [lookupLast, recordLookup, hp, ih h.2, optionOr_none_right]

theorem recordLookup_of_mem_of_nodup {α : Type} {m : List (String × α)} {k : String} {v : α}
    (h : (recordKeys m).Nodup) (hm : (k, v) ∈ m) : recordLookup m k = some v := by
  induction m with
  | nil => cases hm
  | cons p rest ih =>
    rw [recordKeys] at h
    simp only [List.map_cons, List.nodup_cons] at h
    rcases List.mem_cons.1 hm with he | hr
    · rw [← he]; simp [recordLookup]
    · have hk : k ∈ recordKeys rest := by
        exact List.mem_map.2 ⟨(k, v), hr, rfl⟩
      have hp : ¬ p.1 = k := fun he => h.1 (he ▸ hk)
      simp [recordLookup, hp, ih h.2 hr]

theorem recordSet_pairProp {α : Type} {P : String × α → Prop} {m : List (String × α)}
    {k : String} {v : α} (hm : ∀ p ∈ m, P p) (hkv : P (k, v)) :
    ∀ p ∈ recordSet m k v, P p := by
  induction m with
  | nil => simpa [recordSet]
  | cons q rest ih =>
    by_cases hq : q.1 = k
    · intro p hp
      rw [recordSet] at hp
      simp only [hq, if_true] at hp
      rcases List.mem_cons.1 hp with he | hr
      · exact he ▸ hkv
      · exact hm p (List.mem_cons.2 (Or.inr hr))
    · intro p hp
      rw [recordSet] at hp
      simp only [hq, if_false] at hp
      rcases List.mem_cons.1 hp with he | hr
      · exact he ▸ hm q (List.mem_cons.2 (Or.inl rfl))
      · exact ih (fun x hx => hm x (List.mem_cons.2 (Or.inr hx))) p hr

theorem recordSetAll_pairProp {α : Type} {P : String × α → Prop} {l m : List (String × α)}
    (hm : ∀ p ∈ m, P p) (hl : ∀ p ∈ l, P p) :
    ∀ p ∈ recordSetAll m l, P p := by
  induction l generalizing m with
  | nil => simpa [recordSetAll] using hm
  | cons q rest ih =>
    rw [recordSetAll]
    exact ih
      (recordSet_pairProp hm (by simpa using hl q (List.mem_cons.2 (Or.inl rfl))))
      (fun x hx => hl x (List.mem_cons.2 (Or.inr hx)))

theorem recordLookup_eq_none_iff {α : Type} (m : List (String × α)) (k : String) :
    recordLookup m k = none ↔ k ∉ recordKeys m := by
  rw [← recordLookup_isSome_iff]
  cases recordLookup m k <;> simp

theorem recordSet_append_of_not_mem {α : Type} {m : List (String × α)} {k : String} (v : α)
    (h : k ∉ recordKeys m) : recordSet m k v = m ++ [(k, v)] := by
  induction m with
  | nil => rfl
  | cons p rest ih =>
    rw [recordKeys] at h
    simp only [List.map_cons, List.mem_cons] at h
    push_neg at h
    have hp : ¬ p.1 = k := fun he => h.1 he.symm
    rw [recordSet]
    simp only [hp, if_false, List.cons_append]
    rw [ih (by simpa [recordKeys] using h.2)]

theorem recordSetAll_append_of_disjoint {α : Type} {l m : List (String × α)}
    (hd : ∀ p ∈ l, p.1 ∉ recordKeys m) (hn : (recordKeys l).Nodup) :
    recordSetAll m l = m ++ l := by
  induction l generalizing m with
  | nil => simp [recordSetAll]
  | cons p rest ih =>
    rw [recordKeys] at hn
    simp only [List.map_cons, List.nodup_cons] at hn
    rw [recordSetAll,
      recordSet_append_of_not_mem p.2 (hd p (List.mem_cons.2 (Or.inl rfl)))]
    have hd' : ∀ q ∈ rest, q.1 ∉ recordKeys (m ++ [(p.1, p.2)]) := by
      intro q hq
      simp only [recordKeys, List.map_append, List.mem_append, List.map_cons]
      push_neg
      refine ⟨hd q (List.mem_cons.2 (Or.inr hq)), ?_⟩
      simp only [List.map_nil, List.mem_singleton]
      intro he
      exact hn.1 (he ▸ List.mem_map.2 ⟨q, hq, rfl⟩)
    rw [ih hd' hn.2]
    simp

theorem recordSetAll_append {α : Type} (a b m : List (String × α)) :
    recordSetAll m (a ++ b) = recordSetAll (recordSetAll m a) b := by
  induction a generalizing m with
  | nil => simp [recordSetAll]
  | cons p rest ih => rw [List.cons_append, recordSetAll, recordSetAll, ih]

theorem foldl_recordSetAll {α : Type} (ms : List (List (String × α))) (m : List (String × α)) :
    ms.foldl recordSetAll m = recordSetAll m ms.flatten := by
  induction ms generalizing m with
  | nil => simp [recordSetAll]
  | cons l rest ih => rw [List.foldl_cons, ih, List.flatten_cons, recordSetAll_append]

theorem objectAssign_eq {α : Type} (ms : List (List (String × α))) :
    objectAssign ms = recordSetAll [] ms.flatten :=
  foldl_recordSetAll ms []

theorem recordLookup_objectAssign {α : Type} (ms : List (List (String × α))) (k : String) :
    recordLookup (objectAssign ms) k = lookupLast ms.flatten k := by
  rw [objectAssign_eq, recordLookup_recordSetAll]
  simp [recordLookup, optionOr_none_right]

theorem keysNodup_objectAssign {α : Type} (ms : List (List (String × α))) :
    (recordKeys (objectAssign ms)).Nodup := by
  rw [objectAssign_eq]
  exact keysNodup_recordSetAll _ (by simp [recordKeys])

/-! ## Lemmas about filterMap tallies and list ends -/

theorem length_filterMap_ite {α β : Type} (p : α → Bool) (f : α → β) (l : List α) :
    (l.filterMap fun a => if p a then some (f a) else none).length = l.countP p := by
  induction l with
  | nil => simp
  | cons a rest ih =>
    by_cases h : p a <;> simp [List.filterMap_cons, h, List.countP_cons, ih]

theorem head?_filterMap_ite {α β : Type} (p : α → Bool) (f : α → β) (l : List α) :
    (l.filterMap fun a => if p a then some (f a) else none).head? = (l.find? p).map f := by
  induction l with
  | nil => simp
  | cons a rest ih =>
    by_cases h : p a <;> simp [List.filterMap_cons, List.find?_cons, h, ih]

theorem filterMap_ite_eq_nil {α β : Type} {p : α → Bool} {f : α → β} {l : List α}
    (h : l.countP p = 0) :
    (l.filterMap fun a => if p a then some (f a) else none) = [] := by
  rw [← List.length_eq_zero, length_filterMap_ite]
  exact h

theorem filterMap_ite_singleton {α β : Type} {p : α → Bool} {f : α → β} {l : List α} {w : α}
    (h1 : l.countP p = 1) (hw : w ∈ l) (hpw : p w = true) :
    (l.filterMap fun a => if p a then some (f a) else none) = [f w] := by
  induction l with
  | nil => cases hw
  | cons a rest ih =>
    rw [List.countP_cons] at h1
    by_cases h : p a
    · simp only [h, if_true] at h1
      have h0 : rest.countP p = 0 := by omega
      rcases List.mem_cons.1 hw with he | hr
      · subst he
        simp [List.filterMap_cons, h, filterMap_ite_eq_nil h0]
      · exact absurd hpw (by simpa using List.countP_eq_zero.1 h0 w hr)
    · have hpa : p a = false := by simpa using h
      simp only [hpa, if_false] at h1
      have h1' : rest.countP p = 1 := by simpa using h1
      rcases List.mem_cons.1 hw with he | hr
      · subst he
        exact absurd hpw h
      · simp [List.filterMap_cons, hpa, ih h1' hr]

theorem filterMap_ite_filter {α β : Type} (p q : α → Bool) (f : α → β)
    (hpq : ∀ a, q a = false → p a = false) (l : List α) :
    ((l.filter q).filterMap fun a => if p a then some (f a) else none) =
      l.filterMap fun a => if p a then some (f a) else none := by
  induction l with
  | nil => rfl
  | cons a rest ih =>
    by_cases hq : q a
    · rw [List.filter_cons_of_pos hq]
      simp [List.filterMap_cons, ih]
    · rw [List.filter_cons_of_neg hq]
      have hp : p a = false := hpq a (by simpa using hq)
      simp [List.filterMap_cons, hp, ih]

theorem getLast?_mem {α : Type} {l : List α} {a : α} (h : l.getLast? = some a) : a ∈ l := by
  rw [List.getLast?_eq_head?_reverse] at h
  exact List.mem_reverse.1 (List.mem_of_mem_head? (by rw [h]; rfl))

theorem getLast?_filterMap_of_isSome {α β : Type} (g : α → Option β) (l : List α)
    (h : ∀ x ∈ l, (g x).isSome = true) :
    (l.filterMap g).getLast? = l.getLast?.bind g := by
  induction l with
  | nil => simp
  | cons x rest ih =>
    cases hg : g x with
    | none => exact absurd (h x (List.mem_cons_self x rest)) (by simp [hg])
    | some y =>
      cases rest with
      | nil => simp [List.filterMap_cons, hg]
      | cons r rs =>
        have hr : (g r).isSome = true := h r (by simp)
        cases hgr : g r with
        | none =>
          rw [hgr] at hr
          cases hr
        | some z =>
          have ih' := ih (fun t ht => h t (List.mem_cons.2 (Or.inr ht)))
          rw [List.filterMap_cons, hgr] at ih'
          rw [List.filterMap_cons, hg, List.filterMap_cons, hgr, List.getLast?_cons_cons]
          rw [show (x :: r :: rs).getLast? = (r :: rs).getLast? from List.getLast?_cons_cons]
          exact ih'

theorem decide_pos_countP_eq_any {α : Type} (p : α → Bool) (l : List α) :
    decide (0 < l.countP p) = l.any p := by
  cases hval : l.any p with
  | true =>
    obtain ⟨x, hx, hpx⟩ := List.any_eq_true.1 hval
    exact decide_eq_true (List.countP_pos_iff.2 ⟨x, hx, hpx⟩)
  | false =>
    apply decide_eq_false
    intro hpos
    obtain ⟨x, hx, hpx⟩ := List.countP_pos_iff.1 hpos
    have hc := List.any_eq_true.2 ⟨x, hx, hpx⟩
    rw [hval] at hc
    cases hc

/-! ## Lemmas about the type-candidate merger and ordering -/

theorem defaultTypeCandidateMerger_ok_mem {cs : List MergeTypeCandidate} {c : MergeTypeCandidate}
    (h : defaultTypeCandidateMerger cs = .ok c) : c ∈ cs := by
  simp only [defaultTypeCandidateMerger] at h
  by_cases h1 : 1 < (cs.filter typeCanonicalOf).length
  · rw [if_pos h1] at h
    cases hh : (cs.filter typeCanonicalOf).head? <;> rw [hh] at h <;> cases h
  · rw [if_neg h1] at h
    by_cases h2 : (cs.filter typeCanonicalOf).length ≠ 0
    · rw [if_pos h2] at h
      cases hh : (cs.filter typeCanonicalOf).head? with
      | none => rw [hh] at h; cases h
      | some c0 =>
        rw [hh] at h
        have he : c0 = c := by
          injection h
        have hc0 : c0 ∈ cs.filter typeCanonicalOf := List.mem_of_mem_head? (by rw [hh]; rfl)
        exact he ▸ (List.mem_filter.1 hc0).1
    · rw [if_neg h2] at h
      cases hh : cs.getLast? with
      | none => rw [hh] at h; cases h
      | some lc =>
        rw [hh] at h
        have he : lc = c := by injection h
        exact he ▸ getLast?_mem hh

theorem orderedTypeCandidates_eq {cs : List MergeTypeCandidate} {opts : TypeMergingOptions}
    {ord : List MergeTypeCandidate} (h : orderedTypeCandidates cs opts = .ok ord) :
    ∃ c, defaultTypeCandidateMerger cs = .ok c ∧
      ord = cs.filter (fun x => x ≠ c) ++ [c] := by
  rw [orderedTypeCandidates] at h
  cases hm : defaultTypeCandidateMerger cs with
  | error e => rw [hm] at h; cases h
  | ok c =>
    rw [hm] at h
    refine ⟨c, rfl, ?_⟩
    injection h with h'
    exact h'.symm

theorem orderedTypeCandidates_mem_iff {cs : List MergeTypeCandidate} {opts : TypeMergingOptions}
    {ord : List MergeTypeCandidate} (h : orderedTypeCandidates cs opts = .ok ord) :
    ∀ x, x ∈ ord ↔ x ∈ cs := by
  obtain ⟨c, hc, rfl⟩ := orderedTypeCandidates_eq h
  intro x
  constructor
  · intro hx
    rcases List.mem_append.1 hx with hf | hs
    · exact (List.mem_filter.1 hf).1
    · rw [List.mem_singleton.1 hs]
      exact defaultTypeCandidateMerger_ok_mem hc
  · intro hx
    by_cases he : x = c
    · exact List.mem_append.2 (Or.inr (by simp [he]))
    · exact List.mem_append.2 (Or.inl (List.mem_filter.2 ⟨hx, by simpa using he⟩))

theorem orderedTypeCandidates_getLast {cs : List MergeTypeCandidate} {opts : TypeMergingOptions}
    {ord : List MergeTypeCandidate} {c : MergeTypeCandidate}
    (h : orderedTypeCandidates cs opts = .ok ord)
    (hc : defaultTypeCandidateMerger cs = .ok c) : ord.getLast? = some c := by
  obtain ⟨c', hc', rfl⟩ := orderedTypeCandidates_eq h
  rw [hc] at hc'
  have : c = c' := by injection hc'
  rw [← this, List.getLast?_concat]

/-! ## Lemmas about the default field-config merger -/

theorem relaxIf_false (f : GraphQLFieldConfig) : relaxIf false f = f := by
  simp [relaxIf]

theorem relaxCondition_eq (b : Bool) (cs : List MergeFieldConfigCandidate) :
    (decide (0 < (nonNullablesList cs).length) && decide (0 < (nullablesList cs).length) &&
      b) = relaxCondition b cs := by
  rw [relaxCondition, hasEligibleNonNullable, hasEligibleNullable, nonNullablesList,
    nullablesList, length_filterMap_ite, length_filterMap_ite, decide_pos_countP_eq_any,
    decide_pos_countP_eq_any]

theorem defaultFieldConfigMerger_spec (b : Bool) (cs : List MergeFieldConfigCandidate) :
    defaultFieldConfigMerger b cs =
      if 1 < (canonicalByFieldList cs).length ∧ cs ≠ [] then
        match cs.head? with
        | none => .error (.missingRequired "First candidate is required")
        | some c0 => .error (.multipleCanonicalField c0.typeName c0.fieldName)
      else if (canonicalByFieldList cs).length ≠ 0 then
        match (canonicalByFieldList cs).head? with
        | none => .error (.missingRequired "Final field is required")
        | some f => .ok (relaxIf (relaxCondition b cs) f)
      else if (canonicalByTypeList cs).length ≠ 0 then
        match (canonicalByTypeList cs).head? with
        | none => .error (.missingRequired "Final field is required")
        | some f => .ok (relaxIf (relaxCondition b cs) f)
      else
        match cs.getLast? with
        | none => .error (.missingRequired "Field config is required")
        | some c => .ok (relaxIf (relaxCondition b cs) c.fieldConfig) := by
  simp only [defaultFieldConfigMerger]
  rw [relaxCondition_eq]

theorem defaultFieldConfigMerger_ok_relax (b : Bool) (cs : List MergeFieldConfigCandidate)
    (w r : GraphQLFieldConfig) (hw : defaultFieldConfigMerger false cs = .ok w)
    (hr : defaultFieldConfigMerger b cs = .ok r) :
    r = relaxIf (relaxCondition b cs) w := by
  rw [defaultFieldConfigMerger_spec] at hw hr
  have hrelf : relaxCondition false cs = false := by
    simp [relaxCondition]
  by_cases h1 : 1 < (canonicalByFieldList cs).length ∧ cs ≠ []
  · rw [if_pos h1] at hw
    cases hh : cs.head? <;> rw [hh] at hw <;> cases hw
  · rw [if_neg h1] at hw hr
    by_cases h2 : (canonicalByFieldList cs).length ≠ 0
    · rw [if_pos h2] at hw hr
      cases hh : (canonicalByFieldList cs).head? with
      | none => rw [hh] at hw; cases hw
      | some f =>
        rw [hh] at hw hr
        have hwf : relaxIf (relaxCondition false cs) f = w := by injection hw
        have hrf : relaxIf (relaxCondition b cs) f = r := by injection hr
        rw [← hrf, ← hwf, hrelf, relaxIf_false]
    · rw [if_neg h2] at hw hr
      by_cases h3 : (canonicalByTypeList cs).length ≠ 0
      · rw [if_pos h3] at hw hr
        cases hh : (canonicalByTypeList cs).head? with
        | none => rw [hh] at hw; cases hw
        | some f =>
          rw [hh] at hw hr
          have hwf : relaxIf (relaxCondition false cs) f = w := by injection hw
          have hrf : relaxIf (relaxCondition b cs) f = r := by injection hr
          rw [← hrf, ← hwf, hrelf, relaxIf_false]
      · rw [if_neg h3] at hw hr
        cases hh : cs.getLast? with
        | none => rw [hh] at hw; cases hw
        | some c =>
          rw [hh] at hw hr
          have hwf : relaxIf (relaxCondition false cs) c.fieldConfig = w := by injection hw
          have hrf : relaxIf (relaxCondition b cs) c.fieldConfig = r := by injection hr
          rw [← hrf, ← hwf, hrelf, relaxIf_false]

theorem fieldMerger_multiple (b : Bool) (cs : List MergeFieldConfigCandidate)
    (c0 : MergeFieldConfigCandidate) (hh : cs.head? = some c0)
    (h : 1 < cs.countP eligibleFieldCanonical) :
    defaultFieldConfigMerger b cs =
      .error (.multipleCanonicalField c0.typeName c0.fieldName) := by
  rw [defaultFieldConfigMerger_spec]
  have hne : cs ≠ [] := by
    intro he
    rw [he] at hh
    cases hh
  have hlen : 1 < (canonicalByFieldList cs).length := by
    rw [canonicalByFieldList, length_filterMap_ite]
    exact h
  rw [if_pos ⟨hlen, hne⟩, hh]

theorem fieldMerger_one_fieldCanonical (b : Bool) (cs : List MergeFieldConfigCandidate)
    (w : MergeFieldConfigCandidate) (hw : w ∈ cs)
    (h1 : cs.countP eligibleFieldCanonical = 1) (hc : eligibleFieldCanonical w = true) :
    defaultFieldConfigMerger b cs = .ok (relaxIf (relaxCondition b cs) w.fieldConfig) := by
  rw [defaultFieldConfigMerger_spec]
  have hlen : (canonicalByFieldList cs).length = 1 := by
    rw [canonicalByFieldList, length_filterMap_ite]
    exact h1
  have hnot : ¬(1 < (canonicalByFieldList cs).length ∧ cs ≠ []) := by
    intro hcon
    rw [hlen] at hcon
    exact absurd hcon.1 (by omega)
  rw [if_neg hnot, if_pos (by rw [hlen]; exact one_ne_zero)]
  have hsing : canonicalByFieldList cs = [w.fieldConfig] :=
    filterMap_ite_singleton h1 hw hc
  rw [hsing]
  rfl

theorem fieldMerger_typeCanonical (b : Bool) (cs : List MergeFieldConfigCandidate)
    (w : MergeFieldConfigCandidate) (h0 : cs.countP eligibleFieldCanonical = 0)
    (hfind : cs.find? eligibleTypeCanonical = some w) :
    defaultFieldConfigMerger b cs = .ok (relaxIf (relaxCondition b cs) w.fieldConfig) := by
  rw [defaultFieldConfigMerger_spec]
  have hnil : canonicalByFieldList cs = [] := filterMap_ite_eq_nil h0
  have hhead : (canonicalByTypeList cs).head? = some w.fieldConfig := by
    rw [canonicalByTypeList, head?_filterMap_ite, hfind]
    rfl
  have hlen3 : (canonicalByTypeList cs).length ≠ 0 := by
    intro hz
    rw [List.length_eq_zero] at hz
    rw [hz] at hhead
    cases hhead
  rw [if_neg (by rw [hnil]; intro hcon; exact absurd hcon.1 (by simp)),
    if_neg (by rw [hnil]; simp), if_pos hlen3, hhead]

theorem fieldMerger_lastwins (b : Bool) (cs : List MergeFieldConfigCandidate)
    (w : MergeFieldConfigCandidate) (h0 : cs.countP eligibleFieldCanonical = 0)
    (hfind : cs.find? eligibleTypeCanonical = none) (hlast : cs.getLast? = some w) :
    defaultFieldConfigMerger b cs = .ok (relaxIf (relaxCondition b cs) w.fieldConfig) := by
  rw [defaultFieldConfigMerger_spec]
  have hnil : canonicalByFieldList cs = [] := filterMap_ite_eq_nil h0
  have hnil3 : canonicalByTypeList cs = [] := by
    apply List.head?_eq_none_iff.1
    rw [canonicalByTypeList, head?_filterMap_ite, hfind]
    rfl
  rw [if_neg (by rw [hnil]; intro hcon; exact absurd hcon.1 (by simp)),
    if_neg (by rw [hnil]; simp), if_neg (by rw [hnil3]; simp), hlast]

/-! ## The claims -/

/-- C2 (amended): for every non-empty list of field-config candidates for one
field name, the default field-config merger resolves as follows: if two or
more eligible candidates mark the field canonical-by-field it fails with a
MultipleCanonicalError naming `Type.field`; else if exactly one marks it
canonical-by-field that candidate's config is used; else if AT LEAST ONE
eligible candidate's type is canonical-by-type, the FIRST such candidate's
config is used; else the last candidate in input order is used — in each
non-error case with the winner's type additionally relaxed to nullable exactly
when the `useNonNullableFieldOnConflict` rule fires. -/
theorem claim_c2_amended (b : Bool) (T f : String) (cs : List MergeFieldConfigCandidate)
    (hne : cs ≠ []) (hT : ∀ c ∈ cs, c.typeName = T) (hf : ∀ c ∈ cs, c.fieldName = f) :
    (1 < cs.countP eligibleFieldCanonical →
      defaultFieldConfigMerger b cs = .error (.multipleCanonicalField T f)) ∧
    (∀ w ∈ cs, cs.countP eligibleFieldCanonical = 1 → eligibleFieldCanonical w = true →
      defaultFieldConfigMerger b cs = .ok (relaxIf (relaxCondition b cs) w.fieldConfig)) ∧
    (∀ w, cs.countP eligibleFieldCanonical = 0 → cs.find? eligibleTypeCanonical = some w →
      defaultFieldConfigMerger b cs = .ok (relaxIf (relaxCondition b cs) w.fieldConfig)) ∧
    (∀ w, cs.countP eligibleFieldCanonical = 0 → cs.find? eligibleTypeCanonical = none →
      cs.getLast? = some w →
      defaultFieldConfigMerger b cs = .ok (relaxIf (relaxCondition b cs) w.fieldConfig)) := by
  refine ⟨?_, ?_, ?_, ?_⟩
  · intro hcount
    cases hh : cs.head? with
    | none => exact absurd (List.head?_eq_none_iff.1 hh) hne
    | some c0 =>
      have hc0 : c0 ∈ cs := List.mem_of_mem_head? (by rw [hh]; rfl)
      rw [fieldMerger_multiple b cs c0 hh hcount, hT c0 hc0, hf c0 hc0]
  · intro w hw hcount hcanon
    exact fieldMerger_one_fieldCanonical b cs w hw hcount hcanon
  · intro w hcount hfind
    exact fieldMerger_typeCanonical b cs w hcount hfind
  · intro w hcount hfind hlast
    exact fieldMerger_lastwins b cs w hcount hfind hlast

/-- C2 counterexample: with two eligible candidates `cA`, `cB` for `T.f` that
BOTH have their type marked canonical (and no field-level canonical), the
merger returns the FIRST type-canonical candidate's config `cfgA`, not the
last candidate's config `cfgB` as the claim's "exactly one canonical-by-type,
else last-wins" ladder would require. -/
theorem claim_c2_counterexample :
    defaultFieldConfigMerger false [cA, cB] = .ok cfgA ∧
    [cA, cB].getLast? = some cB ∧ cB.fieldConfig = cfgB ∧ cfgA ≠ cfgB ∧
    [cA, cB].countP eligibleFieldCanonical = 0 ∧
    [cA, cB].countP eligibleTypeCanonical = 2 := by
  refine ⟨by rfl, rfl, rfl, by decide, by decide, by decide⟩

/-- C2 witness: the amended ladder applied to a concrete two-candidate list
with no canonical marks resolves to the last candidate. -/
theorem claim_c2_witness :
    defaultFieldConfigMerger false [cNulE, cNon] =
      .ok (relaxIf (relaxCondition false [cNulE, cNon]) cNon.fieldConfig) :=
  (claim_c2_amended false "Foo" "bar" [cNulE, cNon] (by decide) (by decide)
    (by decide)).2.2.2 cNon (by decide) (by decide) rfl

/-- C5 (amended): independent of which candidate wins the canonical/last-wins
ladder, writing `w` for the winner (the config the merger returns with the
flag disabled): if `useNonNullableFieldOnConflict` is enabled and at least one
ELIGIBLE candidate's field type is nullable and at least one ELIGIBLE
candidate's is non-nullable, the returned config is `w` with its type replaced
by its nullable form; otherwise the winner is returned unchanged; the type is
never coerced toward non-nullable; and with the flag disabled the winner is
returned unchanged. -/
theorem claim_c5_amended (b : Bool) (cs : List MergeFieldConfigCandidate)
    (w r : GraphQLFieldConfig)
    (hw : defaultFieldConfigMerger false cs = .ok w)
    (hr : defaultFieldConfigMerger b cs = .ok r) :
    (relaxCondition b cs = true → r = { w with type := getNullableType w.type }) ∧
    (relaxCondition b cs = false → r = w) ∧
    (isNullableType w.type = true → isNullableType r.type = true) ∧
    (b = false → r = w) := by
  have hrel := defaultFieldConfigMerger_ok_relax b cs w r hw hr
  refine ⟨?_, ?_, ?_, ?_⟩
  · intro hc
    rw [hrel, hc]
    simp [relaxIf]
  · intro hc
    rw [hrel, hc, relaxIf_false]
  · intro hn
    rw [hrel]
    cases hc : relaxCondition b cs
    · rw [relaxIf_false]
      exact hn
    · simp [relaxIf, isNullableType, getNullableType]
  · intro hb
    subst hb
    have hc : relaxCondition false cs = false := by
      simp [relaxCondition]
    rw [hrel, hc, relaxIf_false]

/-- C5 counterexample: with the flag enabled, a NULLABLE candidate whose
`transformedSubschema` is not a recognized subschema config (`cNul`) and a
non-nullable eligible candidate (`cNon`), the merger returns the non-nullable
config unchanged — the claim's "at least one candidate nullable and at least
one non-nullable implies the winner's type is relaxed to nullable" fails,
because the nullability tallies only count eligible candidates. -/
theorem claim_c5_counterexample :
    isNullableType cNul.fieldConfig.type = true ∧
    isNullableType cNon.fieldConfig.type = false ∧
    defaultFieldConfigMerger true [cNul, cNon] = .ok cfgNon ∧
    cfgNon.type.nonNull = true := by
  refine ⟨rfl, rfl, by rfl, rfl⟩

/-- C5 witness: with two eligible candidates of mixed nullability and the flag
enabled, the winner's type is relaxed to its nullable form. -/
theorem claim_c5_witness :
    relaxCondition true [cNulE, cNon] = true ∧
    cfgNonRelaxed = { cfgNon with type := getNullableType cfgNon.type } := by
  constructor
  · decide
  · exact (claim_c5_amended true [cNulE, cNon] cfgNon cfgNonRelaxed (by rfl)
      (by rfl)).1 (by decide)

/-- C10: in the default field-config merger, a candidate whose
`transformedSubschema` is not a recognized subschema config is excluded from
the canonical tallies and from the nullable/non-nullable tallies (the four
tally lists are unchanged by restricting to eligible candidates), yet still
participates in the last-wins fallback (which uses the full candidate list);
consequently on the concrete input `[cNul, cNon]` — where the only nullable
candidate is ineligible — no relaxation occurs even with
`useNonNullableFieldOnConflict` enabled, and on `[cNon, cNul]` the ineligible
last candidate is the returned winner. -/
theorem claim_c10 :
    (∀ cs : List MergeFieldConfigCandidate,
      canonicalByFieldList (cs.filter isEligible) = canonicalByFieldList cs ∧
      canonicalByTypeList (cs.filter isEligible) = canonicalByTypeList cs ∧
      nullablesList (cs.filter isEligible) = nullablesList cs ∧
      nonNullablesList (cs.filter isEligible) = nonNullablesList cs) ∧
    (∀ (b : Bool) (cs : List MergeFieldConfigCandidate) (w : MergeFieldConfigCandidate),
      cs.countP eligibleFieldCanonical = 0 → cs.countP eligibleTypeCanonical = 0 →
      cs.getLast? = some w →
      defaultFieldConfigMerger b cs = .ok (relaxIf (relaxCondition b cs) w.fieldConfig)) ∧
    (defaultFieldConfigMerger true [cNul, cNon] = .ok cfgNon ∧
      isNullableType cfgNul.type = true ∧ isNullableType cfgNon.type = false ∧
      isEligible cNul = false ∧ cfgNon.type.nonNull = true) ∧
    (defaultFieldConfigMerger false [cNon, cNul] = .ok cfgNul ∧
      isEligible cNul = false ∧ [cNon, cNul].getLast? = some cNul) := by
  refine ⟨?_, ?_, ⟨by rfl, rfl, rfl, rfl, rfl⟩, ⟨by rfl, rfl, rfl⟩⟩
  · intro cs
    refine ⟨?_, ?_, ?_, ?_⟩
    · exact filterMap_ite_filter eligibleFieldCanonical isEligible _
        (fun a ha => by simp [eligibleFieldCanonical, ha]) cs
    · exact filterMap_ite_filter eligibleTypeCanonical isEligible _
        (fun a ha => by simp [eligibleTypeCanonical, ha]) cs
    · exact filterMap_ite_filter eligibleNullable isEligible _
        (fun a ha => by simp [eligibleNullable, ha]) cs
    · exact filterMap_ite_filter eligibleNonNullable isEligible _
        (fun a ha => by simp [eligibleNonNullable, ha]) cs
  · intro b cs w h1 h2 hlast
    have hfind : cs.find? eligibleTypeCanonical = none := by
      rw [List.find?_eq_none]
      intro x hx
      simpa using List.countP_eq_zero.1 h2 x hx
    exact fieldMerger_lastwins b cs w h1 hfind hlast

/-- C10 witness: the last-wins fallback applied at a concrete list whose last
candidate is ineligible. -/
theorem claim_c10_witness :
    defaultFieldConfigMerger false [cNon, cNul] =
      .ok (relaxIf (relaxCondition false [cNon, cNul]) cNul.fieldConfig) :=
  claim_c10.2.1 false [cNon, cNul] cNul (by decide) (by decide) rfl

/-- C1: for every candidate list whose candidates all carry type name `T`: if
more than one candidate's transformed-subschema merge config marks `T`
canonical, the default type-candidate merger fails with the
multiple-canonical error naming `T`; if exactly one marks `T` canonical, that
candidate is chosen, the default ordering places it last, and consequently —
regardless of declaration order — its description wins, its AST node is the
last one fed to the AST fold, and its extensions entries override the other
candidates' entries on key collision. -/
theorem claim_c1 (T : String) (cs : List MergeTypeCandidate) (opts : TypeMergingOptions)
    (hT : ∀ c ∈ cs, c.type.name = T) :
    (1 < (cs.filter typeCanonicalOf).length →
      defaultTypeCandidateMerger cs = .error (.multipleCanonical T)) ∧
    (∀ c, cs.filter typeCanonicalOf = [c] →
      defaultTypeCandidateMerger cs = .ok c ∧
      ∀ ord, orderedTypeCandidates cs opts = .ok ord →
        ord.getLast? = some c ∧
        mergeTypeDescriptions ord opts = c.type.description ∧
        (∀ a, c.type.astNode = some a → (pluckAstNode ord).getLast? = some a) ∧
        (∀ ext k v, c.type.extensions = some ext → (recordKeys ext).Nodup →
          recordLookup ext k = some v →
          recordLookup (objectAssign (pluckExtensions ord)) k = some v)) := by
  constructor
  · intro h
    simp only [defaultTypeCandidateMerger]
    rw [if_pos h]
    cases hh : (cs.filter typeCanonicalOf).head? with
    | none =>
      rw [List.head?_eq_none_iff] at hh
      rw [hh] at h
      exact absurd h (by simp)
    | some c0 =>
      have hc0cs : c0 ∈ cs :=
        (List.mem_filter.1 (List.mem_of_mem_head? (by rw [hh]; rfl))).1
      show Except.error (MergeError.multipleCanonical c0.type.name) =
        Except.error (MergeError.multipleCanonical T)
      rw [hT c0 hc0cs]
  · intro c hfil
    have hok : defaultTypeCandidateMerger cs = .ok c := by
      simp only [defaultTypeCandidateMerger]
      rw [hfil]
      simp
    refine ⟨hok, ?_⟩
    intro ord hord
    have hlast : ord.getLast? = some c := orderedTypeCandidates_getLast hord hok
    obtain ⟨c', hc', hordeq⟩ := orderedTypeCandidates_eq hord
    have hcc : c = c' := by
      rw [hok] at hc'
      injection hc'
    subst hcc
    refine ⟨hlast, ?_, ?_, ?_⟩
    · rw [mergeTypeDescriptions, defaultTypeDescriptionMerger, hlast]
    · intro a ha
      rw [hordeq]
      simp only [pluckAstNode]
      rw [List.filterMap_append]
      have hone : List.filterMap (fun x => x.type.astNode) [c] = [a] := by
        simp [ha]
      rw [hone, List.getLast?_concat]
    · intro ext k v hext hnd hlk
      rw [hordeq]
      simp only [pluckExtensions]
      rw [List.filterMap_append]
      have hone : List.filterMap (fun x => x.type.extensions) [c] = [ext] := by
        simp [hext]
      rw [hone, recordLookup_objectAssign, List.flatten_append, lookupLast_append]
      have hl : lookupLast (List.flatten [ext]) k = some v := by
        have hfe : List.flatten [ext] = ext := by simp
        rw [hfe, lookupLast_eq_recordLookup_of_nodup hnd]
        exact hlk
      rw [hl]
      rfl

/-- C1 witness: with the canonical candidate `pc2` declared FIRST, the merger
still chooses it and — once ordered last — its description wins. -/
theorem claim_c1_witness :
    defaultTypeCandidateMerger [pc2, pc1] = .ok pc2 ∧
    mergeTypeDescriptions [pc1, pc2] ⟨false⟩ = some "canon" := by
  have h := (claim_c1 "T" [pc2, pc1] ⟨false⟩ (by decide)).2 pc2 (by rfl)
  have hordd : orderedTypeCandidates [pc2, pc1] ⟨false⟩ = .ok [pc1, pc2] := by rfl
  have h2 := h.2 [pc1, pc2] hordd
  exact ⟨h.1, h2.2.1.trans (by rfl)⟩

/-- C3: whenever the default type-candidate merger succeeds with candidate
`c` on a duplicate-free candidate list, the default ordering returns the input
list with `c` moved to the end and the relative order of all other candidates
preserved; and when zero candidates are canonical-marked, the chosen candidate
is the last element of the input, so the output equals the input. -/
theorem claim_c3 (cs : List MergeTypeCandidate) (opts : TypeMergingOptions)
    (c : MergeTypeCandidate) (hnd : cs.Nodup)
    (hok : defaultTypeCandidateMerger cs = .ok c) :
    (∃ l1 l2, cs = l1 ++ c :: l2 ∧
      orderedTypeCandidates cs opts = .ok (l1 ++ l2 ++ [c])) ∧
    ((∀ x ∈ cs, typeCanonicalOf x = false) →
      cs.getLast? = some c ∧ orderedTypeCandidates cs opts = .ok cs) := by
  have hmem : c ∈ cs := defaultTypeCandidateMerger_ok_mem hok
  obtain ⟨l1, l2, hdec⟩ := List.append_of_mem hmem
  have hnd' := hdec ▸ hnd
  rw [List.nodup_append] at hnd'
  have hc1 : c ∉ l1 := fun hc => (hnd'.2.2 hc) (List.mem_cons_self c l2)
  have hc2 : c ∉ l2 := (List.nodup_cons.1 hnd'.2.1).1
  have hfil : cs.filter (fun x => x ≠ c) = l1 ++ l2 := by
    rw [hdec, List.filter_append]
    congr 1
    · apply List.filter_eq_self.2
      intro a ha
      apply decide_eq_true
      intro he
      exact hc1 (he ▸ ha)
    · rw [List.filter_cons_of_neg (by simp)]
      apply List.filter_eq_self.2
      intro a ha
      apply decide_eq_true
      intro he
      exact hc2 (he ▸ ha)
  have hordeq : orderedTypeCandidates cs opts = .ok (l1 ++ l2 ++ [c]) := by
    simp only [orderedTypeCandidates, hok, hfil]
  refine ⟨⟨l1, l2, hdec, hordeq⟩, ?_⟩
  intro hnone
  have hfil0 : cs.filter typeCanonicalOf = [] :=
    List.filter_eq_nil_iff.2 (fun a ha => by simp [hnone a ha])
  have hlast : cs.getLast? = some c := by
    simp only [defaultTypeCandidateMerger, hfil0] at hok
    simp only [List.length_nil, Nat.lt_irrefl, if_false, ne_eq, not_true_eq_false,
      reduceIte] at hok
    cases hh : cs.getLast? with
    | none => rw [hh] at hok; cases hok
    | some lc =>
      rw [hh] at hok
      injection hok with h'
      rw [h']
  cases l2 with
  | nil =>
    refine ⟨hlast, ?_⟩
    rw [hordeq, hdec]
    simp
  | cons x xs =>
    exfalso
    have hcs : cs.getLast? = (x :: xs).getLast? := by
      rw [hdec, List.getLast?_append, List.getLast?_cons_cons]
      cases hx : (x :: xs).getLast? with
      | none => rw [List.getLast?_eq_none_iff] at hx; cases hx
      | some y => simp [Option.or]
    rw [hcs] at hlast
    exact hc2 (getLast?_mem hlast)

/-- C3 witness: a two-candidate list with no canonical marks is returned
unchanged by the default ordering. -/
theorem claim_c3_witness :
    orderedTypeCandidates [pc1, oc1] ⟨false⟩ = .ok [pc1, oc1] :=
  ((claim_c3 [pc1, oc1] ⟨false⟩ oc1 (by decide) (by rfl)).2 (by decide)).2

/-- C4: if a candidate list contains two candidates of different GraphQL type
categories, `mergeCandidates` fails with the category-mismatch error naming
the type, before any per-kind merge is attempted — it never silently picks one
candidate. -/
theorem claim_c4 (T : String) (cs : List MergeTypeCandidate) (opts : TypeMergingOptions)
    (c1 c2 : MergeTypeCandidate) (h1 : c1 ∈ cs) (h2 : c2 ∈ cs)
    (hne : c1.type.category ≠ c2.type.category) :
    mergeCandidates T cs opts = .error (.categoryMismatch T) := by
  cases cs with
  | nil => cases h1
  | cons c0 rest =>
    have hany :
        (c0 :: rest).any (fun c => decide (c.type.category ≠ c0.type.category)) = true := by
      rw [List.any_eq_true]
      by_cases he : c1.type.category = c0.type.category
      · refine ⟨c2, h2, decide_eq_true ?_⟩
        intro hc
        exact hne (he.trans hc.symm)
      · exact ⟨c1, h1, decide_eq_true he⟩
    simp only [mergeCandidates, List.head?_cons]
    rw [if_pos hany]

/-- C4 witness: an object candidate and a scalar candidate sharing the type
name raise the category-mismatch error. -/
theorem claim_c4_witness :
    mergeCandidates "T" [pc1, sc3] ⟨false⟩ = .error (.categoryMismatch "T") :=
  claim_c4 "T" [pc1, sc3] ⟨false⟩ pc1 sc3 (by decide) (by decide) (by decide)

theorem findSpecifiedByURL_eq_find (l : List MergeTypeCandidate) :
    findSpecifiedByURL l =
      (l.find? hasTruthySpecifiedByURL).bind (fun c => c.type.specifiedByURLOf) := by
  induction l with
  | nil => rfl
  | cons c rest ih =>
    rw [findSpecifiedByURL, List.find?_cons]
    cases hs : c.type.specifiedByURLOf with
    | none =>
      have hp : hasTruthySpecifiedByURL c = false := by
        rw [hasTruthySpecifiedByURL, hs]
      rw [hp, ih]
    | some s =>
      by_cases he : s = ""
      · subst he
        have hp : hasTruthySpecifiedByURL c = false := by
          rw [hasTruthySpecifiedByURL, hs]
          rfl
        rw [hp]
        simp [ih]
      · have hp : hasTruthySpecifiedByURL c = true := by
          rw [hasTruthySpecifiedByURL, hs]
          exact bne_iff_ne.2 he
        rw [hp]
        simp [hs, he]

/-- C6 (amended): for every scalar merge on the canonical-adjusted candidate
order (the ordering of `orderedTypeCandidates`, which moves a canonical
candidate to the end): provided every candidate defines the three scalar
functions (as every real `GraphQLScalarType` instance does), the merged
scalar's `serialize`, `parseValue` and `parseLiteral` are each taken from the
LAST candidate of that order (no per-function canonical override), and its
`specifiedByURL` is the first truthy (non-null AND non-empty) `specifiedByURL`
found scanning that same order. -/
theorem claim_c6_amended (T : String) (cs : List MergeTypeCandidate)
    (opts : TypeMergingOptions) (ord : List MergeTypeCandidate) (m : ScalarTypeData)
    (hord : orderedTypeCandidates cs opts = .ok ord)
    (hm : mergeScalarTypeCandidates T cs opts = .ok (.scalar m))
    (hser : ∀ c ∈ cs, (c.type.serializeOf).isSome = true)
    (hpv : ∀ c ∈ cs, (c.type.parseValueOf).isSome = true)
    (hpl : ∀ c ∈ cs, (c.type.parseLiteralOf).isSome = true) :
    ∃ lastc, ord.getLast? = some lastc ∧
      m.serialize = lastc.type.serializeOf ∧
      m.parseValue = lastc.type.parseValueOf ∧
      m.parseLiteral = lastc.type.parseLiteralOf ∧
      m.specifiedByURL =
        (ord.find? hasTruthySpecifiedByURL).bind (fun c => c.type.specifiedByURLOf) := by
  simp only [mergeScalarTypeCandidates, hord] at hm
  injection hm with hm1
  injection hm1 with hm2
  obtain ⟨c, hc, hordeq⟩ := orderedTypeCandidates_eq hord
  have hsub : ∀ x ∈ ord, x ∈ cs := fun x hx => (orderedTypeCandidates_mem_iff hord x).1 hx
  have hne : ord ≠ [] := by
    rw [hordeq]
    simp
  cases hl : ord.getLast? with
  | none => exact absurd (List.getLast?_eq_none_iff.1 hl) hne
  | some lastc =>
    refine ⟨lastc, rfl, ?_, ?_, ?_, ?_⟩
    · rw [← hm2]
      show (ord.filterMap (fun c => c.type.serializeOf)).getLast? = lastc.type.serializeOf
      rw [getLast?_filterMap_of_isSome _ ord (fun x hx => hser x (hsub x hx)), hl]
      rfl
    · rw [← hm2]
      show (ord.filterMap (fun c => c.type.parseValueOf)).getLast? = lastc.type.parseValueOf
      rw [getLast?_filterMap_of_isSome _ ord (fun x hx => hpv x (hsub x hx)), hl]
      rfl
    · rw [← hm2]
      show (ord.filterMap (fun c => c.type.parseLiteralOf)).getLast? = lastc.type.parseLiteralOf
      rw [getLast?_filterMap_of_isSome _ ord (fun x hx => hpl x (hsub x hx)), hl]
      rfl
    · rw [← hm2]
      show findSpecifiedByURL ord = _
      exact findSpecifiedByURL_eq_find ord

/-- C6 counterexample: the claim as stated fails on the code in two ways.
With `sc1` (canonical, URL `u1`, serializers `1`) declared first and `sc2`
(URL `u2`, serializers `2`) second, scanning the ORIGINAL input order the first
non-null `specifiedByURL` is `u1`, but the merge returns `u2` (the scan runs
over the canonical-adjusted order), and `serialize` comes from `sc1` (moved
last), not from the last input candidate `sc2`.  Moreover with `sc3` carrying
the non-null but EMPTY URL `""` before `sc4`, the merge skips `""` (JavaScript
truthiness) and returns `u4`. -/
theorem claim_c6_counterexample :
    mergeScalarTypeCandidates "S" [sc1, sc2] ⟨false⟩ = .ok (.scalar mergedS12) ∧
    mergedS12.specifiedByURL = some "u2" ∧
    sc1.type.specifiedByURLOf = some "u1" ∧ some "u2" ≠ (some "u1" : Option String) ∧
    mergedS12.serialize = some 1 ∧ sc2.type.serializeOf = some 2 ∧
    mergeScalarTypeCandidates "S" [sc3, sc4] ⟨false⟩ = .ok (.scalar mergedS34) ∧
    mergedS34.specifiedByURL = some "u4" ∧
    sc3.type.specifiedByURLOf = some "" := by
  refine ⟨by rfl, rfl, rfl, by decide, rfl, rfl, by rfl, rfl, rfl⟩

/-- C6 witness: the amended statement applied at the concrete merge of
`[sc1, sc2]` — the last candidate of the adjusted order is the canonical
`sc1`, whose serializer wins. -/
theorem claim_c6_witness :
    mergedS12.serialize = sc1.type.serializeOf ∧
    mergedS12.specifiedByURL =
      ([sc2, sc1].find? hasTruthySpecifiedByURL).bind (fun c => c.type.specifiedByURLOf) := by
  obtain ⟨lastc, hl, h1, _, _, h4⟩ :=
    claim_c6_amended "S" [sc1, sc2] ⟨false⟩ [sc2, sc1] mergedS12 (by rfl) (by rfl)
      (by decide) (by decide) (by decide)
  have hlc : lastc = sc1 := by
    rw [show ([sc2, sc1] : List MergeTypeCandidate).getLast? = some sc1 from rfl] at hl
    injection hl with h
    exact h.symm
  exact ⟨hlc ▸ h1, h4⟩

theorem inner_foldl_recordSet (refs : List NamedRef) (acc : List (String × NamedRef)) :
    refs.foldl (fun a i => recordSet a i.name i) acc =
      recordSetAll acc (refs.map (fun i => (i.name, i))) := by
  induction refs generalizing acc with
  | nil => rfl
  | cons i rest ih => rw [List.foldl_cons, List.map_cons, recordSetAll, ih]

theorem buildNamedRefMap_eq (ls : List (List NamedRef)) :
    buildNamedRefMap ls = recordSetAll [] (namedRefPairs ls) := by
  rw [buildNamedRefMap, namedRefPairs]
  have hgen : ∀ acc,
      ls.foldl (fun acc refs => refs.foldl (fun a i => recordSet a i.name i) acc) acc =
        recordSetAll acc (ls.map (fun l => l.map (fun i => (i.name, i)))).flatten := by
    induction ls with
    | nil =>
      intro acc
      simp [recordSetAll]
    | cons l rest ih =>
      intro acc
      rw [List.foldl_cons, ih, List.map_cons, List.flatten_cons, recordSetAll_append,
        inner_foldl_recordSet]
  exact hgen []

theorem buildNamedRefMap_pairProp (ls : List (List NamedRef)) :
    ∀ p ∈ buildNamedRefMap ls, p.1 = p.2.name := by
  rw [buildNamedRefMap_eq]
  apply recordSetAll_pairProp
  · intro p hp
    cases hp
  · intro p hp
    rw [namedRefPairs] at hp
    obtain ⟨l', hl', hpl⟩ := List.mem_flatten.1 hp
    obtain ⟨l0, _, rfl⟩ := List.mem_map.1 hl'
    obtain ⟨i, _, rfl⟩ := List.mem_map.1 hpl
    rfl

theorem keysNodup_buildNamedRefMap (ls : List (List NamedRef)) :
    (recordKeys (buildNamedRefMap ls)).Nodup := by
  rw [buildNamedRefMap_eq]
  exact keysNodup_recordSetAll _ (by simp [recordKeys])

theorem recordLookup_buildNamedRefMap (ls : List (List NamedRef)) (k : String) :
    recordLookup (buildNamedRefMap ls) k = lookupLast (namedRefPairs ls) k := by
  rw [buildNamedRefMap_eq, recordLookup_recordSetAll]
  simp [recordLookup, optionOr_none_right]

theorem recordValues_names (m : List (String × NamedRef))
    (hp : ∀ p ∈ m, p.1 = p.2.name) :
    (recordValues m).map NamedRef.name = recordKeys m := by
  rw [recordValues, recordKeys, List.map_map]
  apply List.map_congr_left
  intro p hpm
  exact (hp p hpm).symm

theorem mem_keys_namedRefPairs (ls : List (List NamedRef)) (n : String) :
    n ∈ recordKeys (namedRefPairs ls) ↔ ∃ l ∈ ls, ∃ i ∈ l, i.name = n := by
  constructor
  · intro hn
    obtain ⟨p, hp, hpn⟩ := List.mem_map.1 hn
    obtain ⟨l', hl', hpl⟩ := List.mem_flatten.1 hp
    obtain ⟨l0, hl0, rfl⟩ := List.mem_map.1 hl'
    obtain ⟨i, hi, rfl⟩ := List.mem_map.1 hpl
    exact ⟨l0, hl0, i, hi, hpn⟩
  · rintro ⟨l, hl, i, hi, rfl⟩
    apply List.mem_map.2
    refine ⟨(i.name, i), ?_, rfl⟩
    apply List.mem_flatten.2
    exact ⟨l.map (fun j => (j.name, j)), List.mem_map.2 ⟨l, hl, rfl⟩,
      List.mem_map.2 ⟨i, hi, rfl⟩⟩

theorem mergeObjectTypeCandidates_ok {T : String} {cs : List MergeTypeCandidate}
    {opts : TypeMergingOptions} {m : ObjectTypeData}
    (hm : mergeObjectTypeCandidates T cs opts = .ok (.object m)) :
    ∃ ord fields, orderedTypeCandidates cs opts = .ok ord ∧
      fieldConfigMapFromTypeCandidates ord opts = .ok fields ∧
      m = { name := T,
            description := mergeTypeDescriptions ord opts,
            fields := fields,
            interfaces :=
              recordValues (buildNamedRefMap (ord.map (fun c => interfacesOf c.type))),
            astNode := none,
            extensions := some (objectAssign (pluckExtensions ord)) } := by
  simp only [mergeObjectTypeCandidates] at hm
  cases hord : orderedTypeCandidates cs opts with
  | error e =>
    simp only [hord] at hm
    cases hm
  | ok ord =>
    simp only [hord] at hm
    cases hf : fieldConfigMapFromTypeCandidates ord opts with
    | error e =>
      simp only [hf] at hm
      cases hm
    | ok fields =>
      simp only [hf] at hm
      injection hm with h1
      injection h1 with h2
      exact ⟨ord, fields, rfl, hf, h2.symm⟩

/-- C7: for every object-type merge, the merged type's interface list has no
duplicate names, a name appears in it exactly when some candidate implements
an interface of that name, and each kept interface object is the LAST one with
its name in the concatenation of the (canonical-adjusted) candidates'
interface lists — so on a name collision the later candidate's interface
object wins. -/
theorem claim_c7 (T : String) (cs : List MergeTypeCandidate) (opts : TypeMergingOptions)
    (m : ObjectTypeData) (hm : mergeObjectTypeCandidates T cs opts = .ok (.object m)) :
    ((m.interfaces.map NamedRef.name).Nodup) ∧
    (∀ n, (∃ i ∈ m.interfaces, i.name = n) ↔
      ∃ c ∈ cs, ∃ i ∈ interfacesOf c.type, i.name = n) ∧
    (∀ ord, orderedTypeCandidates cs opts = .ok ord →
      ∀ i ∈ m.interfaces,
        lookupLast (namedRefPairs (ord.map (fun c => interfacesOf c.type))) i.name =
          some i) := by
  obtain ⟨ord0, fields, hord0, hf, hmeq⟩ := mergeObjectTypeCandidates_ok hm
  have hint : m.interfaces =
      recordValues (buildNamedRefMap (ord0.map (fun c => interfacesOf c.type))) := by
    rw [hmeq]
  have hpair := buildNamedRefMap_pairProp (ord0.map (fun c => interfacesOf c.type))
  have hknd := keysNodup_buildNamedRefMap (ord0.map (fun c => interfacesOf c.type))
  refine ⟨?_, ?_, ?_⟩
  · rw [hint, recordValues_names _ hpair]
    exact hknd
  · intro n
    rw [hint]
    have hiff1 :
        (∃ i ∈ recordValues (buildNamedRefMap (ord0.map (fun c => interfacesOf c.type))),
          i.name = n) ↔
        n ∈ recordKeys (buildNamedRefMap (ord0.map (fun c => interfacesOf c.type))) := by
      constructor
      · rintro ⟨i, hi, rfl⟩
        obtain ⟨p, hp, rfl⟩ := List.mem_map.1 hi
        rw [← hpair p hp]
        exact List.mem_map.2 ⟨p, hp, rfl⟩
      · intro hn
        obtain ⟨p, hp, rfl⟩ := List.mem_map.1 hn
        exact ⟨p.2, List.mem_map.2 ⟨p, hp, rfl⟩, (hpair p hp).symm⟩
    rw [hiff1]
    have hiff2 :
        n ∈ recordKeys (buildNamedRefMap (ord0.map (fun c => interfacesOf c.type))) ↔
        n ∈ recordKeys (namedRefPairs (ord0.map (fun c => interfacesOf c.type))) := by
      rw [← recordLookup_isSome_iff, ← lookupLast_isSome_iff, recordLookup_buildNamedRefMap]
    rw [hiff2, mem_keys_namedRefPairs]
    constructor
    · rintro ⟨l, hl, i, hi, hiname⟩
      obtain ⟨c, hc, rfl⟩ := List.mem_map.1 hl
      exact ⟨c, (orderedTypeCandidates_mem_iff hord0 c).1 hc, i, hi, hiname⟩
    · rintro ⟨c, hc, i, hi, hiname⟩
      exact ⟨interfacesOf c.type,
        List.mem_map.2 ⟨c, (orderedTypeCandidates_mem_iff hord0 c).2 hc, rfl⟩, i, hi, hiname⟩
  · intro ord hordx i hi
    have hoo : ord0 = ord := by
      rw [hord0] at hordx
      injection hordx
    subst hoo
    rw [hint] at hi
    obtain ⟨p, hp, rfl⟩ := List.mem_map.1 hi
    rw [← recordLookup_buildNamedRefMap, ← hpair p hp]
    exact recordLookup_of_mem_of_nodup hknd hp

/-- C7 witness: merging an object implementing `{A}` with one implementing
`{A, B}` yields interfaces `{A, B}` without duplicates, keeping the later
candidate's `A` object (id 20). -/
theorem claim_c7_witness :
    (mergedO12.interfaces.map NamedRef.name).Nodup ∧
    mergedO12.interfaces = [{ name := "A", id := 20 }, { name := "B", id := 21 }] :=
  ⟨(claim_c7 "T" [oc1, oc2] ⟨false⟩ mergedO12 (by rfl)).1, rfl⟩

/-- C9: for every object-type merge, the merged type's extensions record has
no duplicate keys, and the value at each key is the LAST binding of that key
in the concatenation of the candidates' non-null extensions objects taken in
(canonical-adjusted) candidate order — i.e. a shallow merge in which a later
candidate's value overwrites an earlier one on key collision. -/
theorem claim_c9 (T : String) (cs : List MergeTypeCandidate) (opts : TypeMergingOptions)
    (m : ObjectTypeData) (E : List (String × Nat))
    (hm : mergeObjectTypeCandidates T cs opts = .ok (.object m))
    (hE : m.extensions = some E) :
    (recordKeys E).Nodup ∧
    ∀ ord, orderedTypeCandidates cs opts = .ok ord →
      ∀ k, recordLookup E k = lookupLast (pluckExtensions ord).flatten k := by
  obtain ⟨ord0, fields, hord0, hf, hmeq⟩ := mergeObjectTypeCandidates_ok hm
  have hEeq : E = objectAssign (pluckExtensions ord0) := by
    rw [hmeq] at hE
    injection hE with h
    exact h.symm
  constructor
  · rw [hEeq]
    exact keysNodup_objectAssign _
  · intro ord hordx k
    have hoo : ord0 = ord := by
      rw [hord0] at hordx
      injection hordx
    rw [hEeq, ← hoo, recordLookup_objectAssign]

/-- C9 witness: candidate extensions `{x:1, y:2}` and `{y:3, z:4}` merge to
`{x:1, y:3, z:4}`, with the later candidate's `y` winning. -/
theorem claim_c9_witness :
    (recordKeys extW9).Nodup ∧
    recordLookup extW9 "y" = lookupLast (pluckExtensions [oc1, oc2]).flatten "y" ∧
    extW9 = [("x", 1), ("y", 3), ("z", 4)] := by
  have h := claim_c9 "T" [oc1, oc2] ⟨false⟩ mergedO12 extW9 (by rfl) (by rfl)
  exact ⟨h.1, h.2 [oc1, oc2] (by rfl) "y", rfl⟩

theorem defaultTypeCandidateMerger_singleton (c : MergeTypeCandidate) :
    defaultTypeCandidateMerger [c] = .ok c := by
  simp only [defaultTypeCandidateMerger]
  cases h : typeCanonicalOf c
  · have hfil : List.filter typeCanonicalOf [c] = [] := by
      rw [List.filter_cons_of_neg (by simp [h])]
      rfl
    rw [hfil]
    simp
  · have hfil : List.filter typeCanonicalOf [c] = [c] := by
      rw [List.filter_cons_of_pos h]
      rfl
    rw [hfil]
    simp

theorem orderedTypeCandidates_singleton (c : MergeTypeCandidate) (opts : TypeMergingOptions) :
    orderedTypeCandidates [c] opts = .ok [c] := by
  simp only [orderedTypeCandidates, defaultTypeCandidateMerger_singleton]
  simp

theorem defaultFieldConfigMerger_singleton (b : Bool) (fc : MergeFieldConfigCandidate) :
    defaultFieldConfigMerger b [fc] = .ok fc.fieldConfig := by
  rw [defaultFieldConfigMerger_spec]
  have hrc : relaxCondition b [fc] = false := by
    rw [relaxCondition, hasEligibleNonNullable, hasEligibleNullable]
    simp only [List.any_cons, List.any_nil, Bool.or_false, eligibleNullable,
      eligibleNonNullable]
    cases isEligible fc <;> cases isNullableType fc.fieldConfig.type <;> simp
  cases h1 : eligibleFieldCanonical fc
  · cases h2 : eligibleTypeCanonical fc
    · have e1 : canonicalByFieldList [fc] = [] := by
        simp [canonicalByFieldList, List.filterMap_cons, h1]
      have e2 : canonicalByTypeList [fc] = [] := by
        simp [canonicalByTypeList, List.filterMap_cons, h2]
      rw [e1, e2]
      simp [hrc, relaxIf_false]
    · have e1 : canonicalByFieldList [fc] = [] := by
        simp [canonicalByFieldList, List.filterMap_cons, h1]
      have e2 : canonicalByTypeList [fc] = [fc.fieldConfig] := by
        simp [canonicalByTypeList, List.filterMap_cons, h2]
      rw [e1, e2]
      simp [hrc, relaxIf_false]
  · have e1 : canonicalByFieldList [fc] = [fc.fieldConfig] := by
      simp [canonicalByFieldList, List.filterMap_cons, h1]
    rw [e1]
    simp [hrc, relaxIf_false]

theorem addFieldCandidate_fold (c : MergeTypeCandidate) :
    ∀ (flds : List (String × GraphQLFieldConfig))
      (acc : List (String × List MergeFieldConfigCandidate)),
      (∀ p ∈ flds, p.1 ∉ recordKeys acc) → (recordKeys flds).Nodup →
      flds.foldl (addFieldCandidate c) acc =
        acc ++ flds.map (fun p => (p.1, [mkFieldCandidate c p])) := by
  intro flds
  induction flds with
  | nil =>
    intro acc _ _
    simp
  | cons p rest ih =>
    intro acc hd hn
    rw [List.foldl_cons]
    have hnone : recordLookup acc p.1 = none :=
      (recordLookup_eq_none_iff acc p.1).2 (hd p (List.mem_cons_self p rest))
    have hstep : addFieldCandidate c acc p = acc ++ [(p.1, [mkFieldCandidate c p])] := by
      rw [addFieldCandidate]
      simp only [hnone]
      exact recordSet_append_of_not_mem _ (hd p (List.mem_cons_self p rest))
    rw [hstep]
    rw [recordKeys] at hn
    simp only [List.map_cons, List.nodup_cons] at hn
    have hd' : ∀ q ∈ rest, q.1 ∉ recordKeys (acc ++ [(p.1, [mkFieldCandidate c p])]) := by
      intro q hq
      simp only [recordKeys, List.map_append, List.mem_append, List.map_cons, List.map_nil,
        List.mem_singleton]
      push_neg
      refine ⟨hd q (List.mem_cons.2 (Or.inr hq)), ?_⟩
      intro he
      exact hn.1 (he ▸ List.mem_map.2 ⟨q, hq, rfl⟩)
    rw [ih (acc ++ [(p.1, [mkFieldCandidate c p])]) hd' (by simpa [recordKeys] using hn.2)]
    simp

theorem fieldCandidatesMap_singleton (c : MergeTypeCandidate)
    (hk : (recordKeys (objectFieldsOf c.type)).Nodup) :
    fieldCandidatesMap [c] =
      (objectFieldsOf c.type).map (fun p => (p.1, [mkFieldCandidate c p])) := by
  rw [fieldCandidatesMap]
  simp only [List.foldl_cons, List.foldl_nil]
  rw [addFieldCandidate_fold c (objectFieldsOf c.type) [] (by simp [recordKeys]) hk]
  simp

theorem mergeFieldGroups_single (opts : TypeMergingOptions) (c : MergeTypeCandidate)
    (flds : List (String × GraphQLFieldConfig)) :
    mergeFieldGroups opts (flds.map (fun p => (p.1, [mkFieldCandidate c p]))) = .ok flds := by
  induction flds with
  | nil => rfl
  | cons p rest ih =>
    rw [List.map_cons, mergeFieldGroups]
    have h1 : mergeFieldConfigs [mkFieldCandidate c p] opts = .ok p.2 := by
      rw [mergeFieldConfigs]
      simp only [defaultFieldConfigMerger_singleton]
      rfl
    simp only [h1, ih]

theorem buildNamedRefMap_single (ifaces : List NamedRef)
    (h : (ifaces.map NamedRef.name).Nodup) :
    recordValues (buildNamedRefMap [ifaces]) = ifaces := by
  rw [buildNamedRefMap_eq]
  have hp : namedRefPairs [ifaces] = ifaces.map (fun i => (i.name, i)) := by
    simp [namedRefPairs]
  have hknd : (recordKeys (ifaces.map (fun i => (i.name, i)))).Nodup := by
    simpa [recordKeys, List.map_map, Function.comp] using h
  rw [hp, recordSetAll_append_of_disjoint (by simp [recordKeys]) hknd]
  simp only [List.nil_append, recordValues, List.map_map]
  have hid : List.map (Prod.snd ∘ fun i : NamedRef => (i.name, i)) ifaces =
      List.map id ifaces :=
    List.map_congr_left (fun i _ => rfl)
  rw [hid, List.map_id]

theorem objectAssign_single (ext : List (String × Nat)) (h : (recordKeys ext).Nodup) :
    objectAssign [ext] = ext := by
  rw [objectAssign_eq]
  have hf : List.flatten [ext] = ext := by simp
  rw [hf, recordSetAll_append_of_disjoint (by simp [recordKeys]) h]
  simp

/-- C8: merging a list containing exactly one object candidate returns a type
equivalent to that candidate's definition — same name (given the candidate
carries the group's type name), same field map, same description, and same
extensions. -/
theorem claim_c8 (T : String) (c : MergeTypeCandidate) (opts : TypeMergingOptions)
    (o : ObjectTypeData) (ext : List (String × Nat))
    (hc : c.type = .object o) (hname : o.name = T)
    (hkf : (recordKeys o.fields).Nodup)
    (hext : o.extensions = some ext) (hke : (recordKeys ext).Nodup)
    (hki : (o.interfaces.map NamedRef.name).Nodup) :
    mergeCandidates T [c] opts = .ok (.object
      { name := o.name, description := o.description, fields := o.fields,
        interfaces := o.interfaces, astNode := none, extensions := some ext }) := by
  have hcat : c.type.category = .object := by
    rw [hc]
    rfl
  have hdisp : mergeCandidates T [c] opts = mergeObjectTypeCandidates T [c] opts := by
    simp only [mergeCandidates, List.head?_cons, hcat]
    rw [if_neg (by simp [hcat])]
  rw [hdisp]
  simp only [mergeObjectTypeCandidates, orderedTypeCandidates_singleton]
  have hfm : fieldConfigMapFromTypeCandidates [c] opts = .ok o.fields := by
    simp only [fieldConfigMapFromTypeCandidates]
    rw [fieldCandidatesMap_singleton c (by rw [hc]; exact hkf)]
    rw [show objectFieldsOf c.type = o.fields by rw [hc]; rfl]
    exact mergeFieldGroups_single opts c o.fields
  simp only [hfm]
  have hdesc : mergeTypeDescriptions [c] opts = o.description := by
    rw [mergeTypeDescriptions, defaultTypeDescriptionMerger]
    simp [hc, GraphQLNamedType.description]
  have hifc :
      recordValues (buildNamedRefMap ([c].map (fun x => interfacesOf x.type))) =
        o.interfaces := by
    rw [show ([c].map (fun x => interfacesOf x.type)) = [o.interfaces] by
      simp [hc, interfacesOf]]
    exact buildNamedRefMap_single o.interfaces hki
  have hexts : objectAssign (pluckExtensions [c]) = ext := by
    rw [show pluckExtensions [c] = [ext] by
      simp [pluckExtensions, hc, GraphQLNamedType.extensions, hext]]
    exact objectAssign_single ext hke
  rw [hdesc, hifc, hexts, hname]

/-- C8 witness: merging the single candidate `oc1` reproduces its name,
description, field map, interfaces and extensions. -/
theorem claim_c8_witness :
    mergeCandidates "T" [oc1] ⟨false⟩ = .ok (.object
      { name := "T", description := some "a", fields := [("f", cfgA)],
        interfaces := [{ name := "A", id := 10 }], astNode := none,
        extensions := some [("x", 1), ("y", 2)] }) :=
  claim_c8 "T" oc1 ⟨false⟩ ocData1 [("x", 1), ("y", 2)] rfl rfl (by decide) rfl
    (by decide) (by decide)

end Stitch
